import Mathlib

/-!
Verification of the chain-relative transaction view resolver of `btcchain`
(`txlookup.go`): the view mutators `connectTransactions` and
`disconnectTransactions`, the view resolver `fetchTxList` and the input
resolver `fetchInputTransactions`, shallowly embedded over explicit
transaction-store values.

Modelling conventions:
  * transaction hashes (`btcwire.ShaHash`) are `Nat`; heights (`int64`) are
    `Int`;
  * a Go map `map[btcwire.ShaHash]*txData` is a function
    `Nat → Option txData`; the in-place mutation of a `*txData` entry is an
    insertion of the updated record at the same key;
  * a Go nil `[]bool` slice is the empty list (nil and empty slices are
    observationally equal to the code: `len` is 0 and every index access
    panics);
  * a Go out-of-range slice write (`spent[originIndex] = v` with
    `originIndex >= len(spent)`) is a run-time panic; functions that can
    panic return `Except GoPanic _`, and a caller that cannot itself recover
    a panic propagates the `.error`;
  * `block.TxSha(i)` is total here: each block transaction carries its hash
    (`BlockTx.sha`), so the `err` return of `block.TxSha` inside the
    mutators never fires and the mutators' Go `error` result is always nil;
  * the collaborators of `fetchTxList` that live outside `txlookup.go`
    (`b.getPrevNodeFromNode`, `b.bestChain`, `b.db.FetchTxByShaList`,
    `b.getReorganizeNodes`, `b.db.FetchBlockBySha`, `b.blockCache`) are
    fields of the `BlockChain` structure, so every theorem quantifies over
    all of their behaviours.
-/

namespace BtcChain

/-- Go `btcwire.OutPoint`: the fields `txlookup.go` reads of
`txIn.PreviousOutpoint` (origin transaction hash and output index). -/
structure OutPoint where
  hash : Nat
  index : Nat
  deriving DecidableEq, Repr

/-- Go `btcwire.TxIn`, restricted to the one field the resolver reads. -/
structure TxIn where
  previousOutpoint : OutPoint
  deriving DecidableEq, Repr

/-- Go `btcwire.MsgTx`, restricted to what the resolver reads: the inputs and
the outputs.  An output's payload is never inspected (only `len(tx.TxOut)`
is), so an output is a bare `Nat` tag. -/
structure MsgTx where
  txIn : List TxIn
  txOut : List Nat
  deriving DecidableEq, Repr

/-- One transaction of a block together with its hash: `block.TxSha(i)`
paired with `block.MsgBlock().Transactions[i]`. -/
structure BlockTx where
  tx : MsgTx
  sha : Nat
  deriving DecidableEq, Repr

/-- Go `btcutil.Block`, restricted to what the resolver reads:
`block.MsgBlock().Transactions` (with their cached hashes) and
`block.Height()`. -/
structure Block where
  transactions : List BlockTx
  height : Int
  deriving DecidableEq, Repr

/-- The status (`err` field) of one `txData` entry: Go nil, the sentinel
`btcdb.TxShaMissing`, or an arbitrary error of the storage collaborator. -/
inductive TxErr where
  | txShaMissing : TxErr
  | dbError (code : Nat) : TxErr
  deriving DecidableEq, Repr

/-- Go `txData` (txlookup.go lines 16-22).  The Go zero values of the unset
fields are kept: `tx = nil` is `none`, a nil `spent` slice is `[]`. -/
structure txData where
  tx : Option MsgTx
  hash : Nat
  blockHeight : Int
  spent : List Bool
  err : Option TxErr
  deriving DecidableEq, Repr

/-- The transaction store `map[btcwire.ShaHash]*txData`. -/
abbrev TxStore := Nat → Option txData

def emptyTxStore : TxStore := fun _ => none

/-- Map update `txStore[k] = v` (also the in-place mutation of the entry the
map already holds at `k`). -/
def TxStore.insert (s : TxStore) (k : Nat) (v : txData) : TxStore :=
  fun h => if h = k then some v else s h

/-- Go `delete(txStore, k)`. -/
def TxStore.erase (s : TxStore) (k : Nat) : TxStore :=
  fun h => if h = k then none else s h

/-- A Go run-time panic (the only one the resolver can raise is an
out-of-range index into a `spent` slice). -/
inductive GoPanic where
  | indexOutOfRange : GoPanic
  deriving DecidableEq, Repr

/-- Go slice write `l[i] = v`: in range it updates in place, out of range it
panics.  A nil slice has length 0, so writing into a nil slice panics too. -/
def sliceAssign (l : List Bool) (i : Nat) (v : Bool) : Except GoPanic (List Bool) :=
  if i < l.length then .ok (l.set i v) else .error .indexOutOfRange

/-- One spend loop of the mutators (txlookup.go lines 46-52 with `mark =
true`, lines 75-81 with `mark = false`): for each input, if the referenced
origin transaction is in the store, write `mark` at the referenced output
index of its `spent` slice. -/
def spendOrigins (mark : Bool) (txStore : TxStore) : List TxIn → Except GoPanic TxStore
  | [] => .ok txStore
  | txIn :: rest =>
    let originHash := txIn.previousOutpoint.hash
    let originIndex := txIn.previousOutpoint.index
    match txStore originHash with
    | some originTx =>
      match sliceAssign originTx.spent originIndex mark with
      | .error p => .error p
      | .ok spent' => spendOrigins mark (txStore.insert originHash { originTx with spent := spent' }) rest
    | none => spendOrigins mark txStore rest

/-- The entry update of `connectTransactions` (txlookup.go lines 38-43): if
the block transaction's hash is a key of the store, overwrite the entry's
body, creation height, spent slice (freshly sized, all unspent) and status. -/
def connectEntry (blockHeight : Int) (txStore : TxStore) (btx : BlockTx) : TxStore :=
  match txStore btx.sha with
  | some txD =>
    txStore.insert btx.sha
      { txD with tx := some btx.tx, blockHeight := blockHeight,
                 spent := List.replicate btx.tx.txOut.length false, err := none }
  | none => txStore

/-- The transaction loop of `connectTransactions` (txlookup.go lines 30-53):
for each block transaction in order, the entry update, then the spend marks
of its inputs. -/
def connectTxs (blockHeight : Int) (txStore : TxStore) : List BlockTx → Except GoPanic TxStore
  | [] => .ok txStore
  | btx :: rest =>
    match spendOrigins true (connectEntry blockHeight txStore btx) btx.tx.txIn with
    | .error p => .error p
    | .ok txStore' => connectTxs blockHeight txStore' rest

/-- Go `connectTransactions` (txlookup.go lines 27-56).  The Go `error`
result is always nil (see the module comment on `block.TxSha`), so the
result is the updated store, or a propagated panic. -/
def connectTransactions (txStore : TxStore) (block : Block) : Except GoPanic TxStore :=
  connectTxs block.height txStore block.transactions

/-- The transaction loop of `disconnectTransactions` (txlookup.go lines
64-82): for each block transaction in order, remove its entry, then clear
the spend marks of its inputs. -/
def disconnectTxs (txStore : TxStore) : List BlockTx → Except GoPanic TxStore
  | [] => .ok txStore
  | btx :: rest =>
    match spendOrigins false (txStore.erase btx.sha) btx.tx.txIn with
    | .error p => .error p
    | .ok txStore' => disconnectTxs txStore' rest

/-- Go `disconnectTransactions` (txlookup.go lines 61-85). -/
def disconnectTransactions (txStore : TxStore) (block : Block) : Except GoPanic TxStore :=
  disconnectTxs txStore block.transactions

/-- The hashes of a block's own transactions. -/
def blockShas (b : Block) : List Nat := b.transactions.map BlockTx.sha

/-- All inputs of a list of block transactions, in order. -/
def txListIns (txs : List BlockTx) : List TxIn := (txs.map (fun btx => btx.tx.txIn)).flatten

/-- All inputs of all transactions of a block, in block order. -/
def blockTxIns (b : Block) : List TxIn := txListIns b.transactions

/-! ### Per-key characterization of the spend loops

`spendOrigins` is a sequential fold over inputs, but its effect on any one
key is exactly `markSpends`: the inputs that reference that key, applied in
order to that key's entry with the total (no-op when out of range) list
update `List.set`.  The lemmas below make that precise for runs that do not
panic. -/

/-- Effect of one input on the entry stored at `hash`, with the total slice
update. -/
def markSpent (mark : Bool) (hash : Nat) (txIn : TxIn) (entry : Option txData) : Option txData :=
  if txIn.previousOutpoint.hash = hash then
    entry.map fun td => { td with spent := td.spent.set txIn.previousOutpoint.index mark }
  else entry

/-- Effect of a list of inputs on the entry stored at `hash`, in order. -/
def markSpends (mark : Bool) (hash : Nat) : List TxIn → Option txData → Option txData
  | [], e => e
  | t :: rest, e => markSpends mark hash rest (markSpent mark hash t e)

/-- The output indices that the inputs of `txIns` reference at origin
`hash`, in order. -/
def originIdxs (hash : Nat) (txIns : List TxIn) : List Nat :=
  txIns.filterMap fun t =>
    if t.previousOutpoint.hash = hash then some t.previousOutpoint.index else none

/-- Write `mark` at a list of indices in order (no-op at an out-of-range
index). -/
def foldSetIdx (mark : Bool) : List Nat → List Bool → List Bool
  | [], l => l
  | i :: rest, l => foldSetIdx mark rest (l.set i mark)

/-- The map of each stored entry's spent-slice length: all the precondition
for panic-free spend loops depends on. -/
def lenMap (s : TxStore) : Nat → Option Nat := fun h => (s h).map fun td => td.spent.length

/-- Whether writing at the referenced output index of the referenced origin
entry is in bounds (vacuously true when the origin is not in the store). -/
def originInBounds (lens : Nat → Option Nat) (txIn : TxIn) : Bool :=
  match lens txIn.previousOutpoint.hash with
  | some n => decide (txIn.previousOutpoint.index < n)
  | none => true

/-- What the entry update of `connectTransactions` writes over an existing
entry: the block transaction's body, the connecting block's height, a
freshly sized all-unspent slice, and success status. -/
def refreshedEntry (blockHeight : Int) (btx : BlockTx) (td : txData) : txData :=
  { td with tx := some btx.tx, blockHeight := blockHeight,
            spent := List.replicate btx.tx.txOut.length false, err := none }

/-! ### When do the mutators panic?

The only run-time fault either mutator can raise is the unguarded write
`originTx.spent[originIndex] = v`.  Whether it fires depends only on the
evolving map of spent-slice lengths: `connectTransactions` resizes the slice
of a present entry when it connects that transaction, and
`disconnectTransactions` removes entries.  The two `...SpendSafe` predicates
below spell the resulting precondition out, and the `isOk` theorems show it
exact. -/

/-- Length map after the entry update of a connected block transaction: a
present entry's slice is resized to the transaction's output count. -/
def refreshLen (lens : Nat → Option Nat) (btx : BlockTx) : Nat → Option Nat :=
  fun h => if h = btx.sha ∧ (lens h).isSome then some btx.tx.txOut.length else lens h

/-- Length map after an entry is deleted. -/
def eraseLen (lens : Nat → Option Nat) (sha : Nat) : Nat → Option Nat :=
  fun h => if h = sha then none else lens h

/-- The in-bounds precondition of `connectTransactions`: for every input of
every block transaction in order, the origin entry's spent slice — as resized
by the entry updates already performed, including the one for the input's own
transaction — must be strictly longer than the referenced output index
whenever the origin is a key of the store. -/
def connectSpendSafe (lens : Nat → Option Nat) : List BlockTx → Bool
  | [] => true
  | btx :: rest =>
    btx.tx.txIn.all (originInBounds (refreshLen lens btx)) &&
      connectSpendSafe (refreshLen lens btx) rest

/-- The in-bounds precondition of `disconnectTransactions`: for every input
of every block transaction in order, if the origin entry is still present —
entries of block transactions processed so far, the input's own transaction
included, are gone — its spent slice must be strictly longer than the
referenced output index. -/
def disconnectSpendSafe (lens : Nat → Option Nat) : List BlockTx → Bool
  | [] => true
  | btx :: rest =>
    btx.tx.txIn.all (originInBounds (eraseLen lens btx.sha)) &&
      disconnectSpendSafe (eraseLen lens btx.sha) rest

/-! ### Two-phase form of `connectTransactions`

The source interleaves the entry update of each block transaction with the
spend marks of its inputs.  When no input of the block references a block
transaction, the two kinds of update touch disjoint keys, so the interleaved
run equals the phase-separated one: all entry updates first, then all spend
marks. -/

/-- All entry updates of a block, with no spend marks. -/
def connectEntriesPhase (blockHeight : Int) (s : TxStore) : List BlockTx → TxStore
  | [] => s
  | btx :: rest => connectEntriesPhase blockHeight (connectEntry blockHeight s btx) rest

/-- Phase-separated `connectTransactions`: every entry update of the block
first, then every spend mark of the block. -/
def connectPhased (txStore : TxStore) (block : Block) : Except GoPanic TxStore :=
  spendOrigins true (connectEntriesPhase block.height txStore block.transactions)
    (blockTxIns block)

/-! ### The view resolver `fetchTxList` and the input resolver

The collaborators that live outside `txlookup.go` are abstract fields of
`BlockChain`; every theorem about the resolvers holds for all of their
behaviours. -/

/-- A best-chain block node: the fields `txlookup.go` reads (`n.hash`,
`node.height`). -/
structure blockNode where
  hash : Nat
  height : Int
  deriving DecidableEq, Repr

/-- One element of the reply list of `b.db.FetchTxByShaList`
(btcdb's `TxListReply`), restricted to the fields the resolver reads. -/
structure TxReply where
  sha : Nat
  tx : MsgTx
  height : Int
  txSpent : List Bool
  err : Option TxErr
  deriving DecidableEq, Repr

/-- An error value the resolver returns to its caller (never a panic). -/
inductive GoErr where
  /-- An error propagated from a collaborator (`getPrevNodeFromNode` or
  `db.FetchBlockBySha`). -/
  | storageErr (code : Nat) : GoErr
  /-- The formatted error of txlookup.go lines 180-182, Go
  fmt.Errorf with the missing block hash: the side-chain block cache has no
  entry for a node of the attach list. -/
  | sideChainCacheMiss (hash : Nat) : GoErr
  deriving DecidableEq, Repr

/-- The chain state and collaborators `fetchTxList` consults.  The fields
model, in order: `b.getPrevNodeFromNode` (chain.go, lazily materializes the
parent node, nil for genesis), `b.bestChain`, `b.db.FetchTxByShaList`,
`b.getReorganizeNodes` (chain.go, the detach and attach lists),
`b.db.FetchBlockBySha`, and the side-block cache `b.blockCache`. -/
structure BlockChain where
  getPrevNodeFromNode : blockNode → Except GoErr (Option blockNode)
  bestChain : Option blockNode
  fetchTxByShaList : List Nat → List TxReply
  getReorganizeNodes : Option blockNode → List blockNode × List blockNode
  fetchBlockBySha : Nat → Except GoErr Block
  blockCache : Nat → Option Block

/-- The default store entry for a requested hash (txlookup.go line 109):
all fields Go zero values except the hash and the `btcdb.TxShaMissing`
status. -/
def missingEntry (hash : Nat) : txData :=
  { tx := none, hash := hash, blockHeight := 0, spent := [], err := some .txShaMissing }

/-- Initialization loop of `fetchTxList` (txlookup.go lines 107-110): every
requested hash gets a missing-by-default entry. -/
def initTxStore (txList : List Nat) : TxStore :=
  txList.foldl (fun s hash => s.insert hash (missingEntry hash)) emptyTxStore

/-- Go `copy(dst, src)` for bool slices: overwrite the first
`min (len dst) (len src)` positions of `dst` with those of `src`. -/
def goCopy (dst src : List Bool) : List Bool :=
  src.take dst.length ++ dst.drop src.length

/-- The defensive copy `make([]bool, len(txReply.TxSpent))` followed by
`copy` (txlookup.go lines 135-136). -/
def spentCopy (txSpent : List Bool) : List Bool :=
  goCopy (List.replicate txSpent.length false) txSpent

/-- Body of the reply loop of `fetchTxList` (txlookup.go lines 116-138):
ignore a reply with no store entry; otherwise record the reply's status and,
on a hit, the body, height and a defensive copy of the spent slice. -/
def applyReply (s : TxStore) (txReply : TxReply) : TxStore :=
  match s txReply.sha with
  | none => s
  | some txD =>
    match txReply.err with
    | none =>
      s.insert txReply.sha
        { txD with err := none, tx := some txReply.tx,
                   blockHeight := txReply.height, spent := spentCopy txReply.txSpent }
    | some e => s.insert txReply.sha { txD with err := some e }

/-- The reply loop of `fetchTxList` over the whole reply list. -/
def applyReplies (s : TxStore) : List TxReply → TxStore
  | [] => s
  | txReply :: rest => applyReplies (applyReply s txReply) rest

/-- The store `fetchTxList` has built once the main-chain baseline is in
(txlookup.go lines 107-138). -/
def baselineTxStore (b : BlockChain) (txList : List Nat) : TxStore :=
  applyReplies (initTxStore txList) (b.fetchTxByShaList txList)

/-- The early-return condition of txlookup.go line 144:
`b.bestChain == nil || (prevNode != nil && prevNode.hash.IsEqual(b.bestChain.hash))`. -/
def mainChainShortcut (b : BlockChain) (prevNode : Option blockNode) : Bool :=
  match b.bestChain with
  | none => true
  | some tip =>
    match prevNode with
    | some prev => prev.hash == tip.hash
    | none => false

/-- The detach loop of `fetchTxList` (txlookup.go lines 154-162): fetch each
block from storage and undo it.  The inner value is the Go result (store or
returned error); the outer `Except` propagates a panic of
`disconnectTransactions`, whose Go error result the source discards. -/
def detachBlocks (b : BlockChain) (txStore : TxStore) :
    List blockNode → Except GoPanic (Except GoErr TxStore)
  | [] => .ok (.ok txStore)
  | n :: rest =>
    match b.fetchBlockBySha n.hash with
    | .error e => .ok (.error e)
    | .ok block =>
      match disconnectTransactions txStore block with
      | .error p => .error p
      | .ok txStore' => detachBlocks b txStore' rest

/-- The attach loop of `fetchTxList` (txlookup.go lines 176-186): fetch each
block from the side-chain block cache — a miss is the formatted error — and
apply it. -/
def attachBlocks (b : BlockChain) (txStore : TxStore) :
    List blockNode → Except GoPanic (Except GoErr TxStore)
  | [] => .ok (.ok txStore)
  | n :: rest =>
    match b.blockCache n.hash with
    | none => .ok (.error (.sideChainCacheMiss n.hash))
    | some block =>
      match connectTransactions txStore block with
      | .error p => .error p
      | .ok txStore' => attachBlocks b txStore' rest

/-- Go `fetchTxList` (txlookup.go lines 94-189).  The result models the Go
pair `(map[btcwire.ShaHash]*txData, error)`; a panic of a mutator does not
return and is the outer `.error`. -/
def fetchTxList (b : BlockChain) (node : blockNode) (txList : List Nat) :
    Except GoPanic (Option TxStore × Option GoErr) :=
  match b.getPrevNodeFromNode node with
  | .error e => .ok (none, some e)
  | .ok prevNode =>
    let txStore := baselineTxStore b txList
    if mainChainShortcut b prevNode then .ok (some txStore, none)
    else
      let reorg := b.getReorganizeNodes prevNode
      match detachBlocks b txStore reorg.1 with
      | .error p => .error p
      | .ok (.error e) => .ok (none, some e)
      | .ok (.ok txStore₁) =>
        if reorg.2.length = 0 then .ok (some txStore₁, none)
        else
          match attachBlocks b txStore₁ reorg.2 with
          | .error p => .error p
          | .ok (.error e) => .ok (none, some e)
          | .ok (.ok txStore₂) => .ok (some txStore₂, none)

/-- The in-flight map of `fetchInputTransactions` (txlookup.go lines
198-206): every block transaction keyed by its hash, later duplicates
overwriting earlier ones. -/
def buildTxInFlight (txs : List BlockTx) : Nat → Option MsgTx :=
  txs.foldl (fun m btx => fun h => if h = btx.sha then some btx.tx else m h) (fun _ => none)

/-- The entry `fetchInputTransactions` records for an input whose origin is
in flight (txlookup.go lines 224-228). -/
def inFlightEntry (nodeHeight : Int) (originHash : Nat) (tx : MsgTx) : txData :=
  { tx := some tx, hash := originHash, blockHeight := nodeHeight,
    spent := List.replicate tx.txOut.length false, err := none }

/-- The inner input loop of `fetchInputTransactions` (txlookup.go lines
214-232): each input first gets a missing-by-default entry at its origin
hash; an in-flight origin is then filled in place (the net stored value),
any other origin is appended to the needed list. -/
def collectTxIns (nodeHeight : Int) (txInFlight : Nat → Option MsgTx)
    (acc : List Nat × TxStore) : List TxIn → List Nat × TxStore
  | [] => acc
  | txIn :: rest =>
    let originHash := txIn.previousOutpoint.hash
    match txInFlight originHash with
    | some tx =>
      collectTxIns nodeHeight txInFlight
        (acc.1, acc.2.insert originHash (inFlightEntry nodeHeight originHash tx)) rest
    | none =>
      collectTxIns nodeHeight txInFlight
        (acc.1 ++ [originHash], acc.2.insert originHash (missingEntry originHash)) rest

/-- The outer loop of txlookup.go lines 213-233, over the non-coinbase
transactions. -/
def collectNeeded (nodeHeight : Int) (txInFlight : Nat → Option MsgTx)
    (acc : List Nat × TxStore) : List BlockTx → List Nat × TxStore
  | [] => acc
  | btx :: rest =>
    collectNeeded nodeHeight txInFlight (collectTxIns nodeHeight txInFlight acc btx.tx.txIn) rest

/-- The merge loop of `fetchInputTransactions` (txlookup.go lines 243-245):
every entry of the needed store overwrites the entry at its own hash.  Every
entry of a `fetchTxList` store is keyed by its own `hash` field
(`fetchTxList_hash_key`), so ranging over the map and writing at
`*txD.hash` is the pointwise override below; a nil needed store merges
nothing. -/
def mergeNeeded (txStore : TxStore) : Option TxStore → TxStore
  | none => txStore
  | some txNeededStore => fun h =>
    match txNeededStore h with
    | some txD => some txD
    | none => txStore h

/-- Go `fetchInputTransactions` (txlookup.go lines 194-248).  The slice
expression `Transactions[1:]` is `List.drop 1` (a block always has a
coinbase transaction). -/
def fetchInputTransactions (b : BlockChain) (node : blockNode) (block : Block) :
    Except GoPanic (Option TxStore × Option GoErr) :=
  let txInFlight := buildTxInFlight block.transactions
  let needed := collectNeeded node.height txInFlight ([], emptyTxStore) (block.transactions.drop 1)
  match fetchTxList b node needed.1 with
  | .error p => .error p
  | .ok (_, some e) => .ok (none, some e)
  | .ok (txNeededStore, none) => .ok (some (mergeNeeded needed.2 txNeededStore), none)

/-- The hashes of the transactions of the blocks that a run of the detach
loop disconnects (empty entries for nodes whose storage fetch fails: such a
run aborts anyway). -/
def detachListShas (b : BlockChain) : List blockNode → List Nat
  | [] => []
  | n :: rest =>
    (match b.fetchBlockBySha n.hash with
     | .ok block => blockShas block
     | .error _ => []) ++ detachListShas b rest

/-- The hashes of the transactions of the blocks `fetchTxList` disconnects
for a given request: none on the main-chain shortcut, the detach list's
blocks' hashes otherwise. -/
def fetchDetachedShas (b : BlockChain) (node : blockNode) : List Nat :=
  match b.getPrevNodeFromNode node with
  | .error _ => []
  | .ok prevNode =>
    if mainChainShortcut b prevNode then []
    else detachListShas b (b.getReorganizeNodes prevNode).1

/-- Every entry of the store is keyed by its own `hash` field. -/
def hashKeyed (s : TxStore) : Prop := ∀ h td, s h = some td → td.hash = h

/-! ### Concrete instances and projection helpers for the claims -/

/-- The store of a panic-free mutator result (the panic case never occurs
where this is used). -/
def okStore (r : Except GoPanic TxStore) : TxStore := r.toOption.getD emptyTxStore

/-- Spent slice of the entry at `h`. -/
def storeSpentAt (s : TxStore) (h : Nat) : Option (List Bool) := (s h).map txData.spent

/-- Spent slice of the entry at `h` of a mutator result (none on panic). -/
def resultSpentAt (r : Except GoPanic TxStore) (h : Nat) : Option (List Bool) :=
  match r with
  | .ok s => storeSpentAt s h
  | .error _ => none

/-- Connect a block and then disconnect it again, panics propagated. -/
def connectThenDisconnect (txStore : TxStore) (block : Block) : Except GoPanic TxStore :=
  match connectTransactions txStore block with
  | .error p => .error p
  | .ok s₁ => disconnectTransactions s₁ block

/-- A view containing transaction 5 with one output, unspent, and missing
transaction 9; a block whose single transaction (hash 9) spends output 0 of
transaction 5. -/
def witC3Entry : txData :=
  { tx := none, hash := 5, blockHeight := 0, spent := [false], err := none }

def witC3Store : TxStore := TxStore.insert emptyTxStore 5 witC3Entry

def witC3Block : Block := { transactions := [⟨⟨[⟨⟨5, 0⟩⟩], []⟩, 9⟩], height := 3 }

def witC3S1 : TxStore := okStore (connectTransactions witC3Store witC3Block)

def witC3S2 : TxStore := okStore (disconnectTransactions witC3S1 witC3Block)

/-- A view whose entry for transaction 5 already has output 0 spent, and a
block whose single transaction (hash 9) spends that same output. -/
def cexC3Store : TxStore :=
  TxStore.insert emptyTxStore 5
    { tx := none, hash := 5, blockHeight := 0, spent := [true], err := none }

def cexC3Block : Block := { transactions := [⟨⟨[⟨⟨5, 0⟩⟩], []⟩, 9⟩], height := 3 }

/-- The first transaction of the C2 counterexample block: hash 5, one
output, no inputs. -/
def cexC2Tx1 : MsgTx := { txIn := [], txOut := [0] }

/-- A block whose second transaction spends output 0 of its first
transaction (hash 5), and a view requesting hash 5. -/
def cexC2Block : Block :=
  { transactions := [⟨cexC2Tx1, 5⟩, ⟨⟨[⟨⟨5, 0⟩⟩], []⟩, 6⟩], height := 7 }

def cexC2Store : TxStore := TxStore.insert emptyTxStore 5 (missingEntry 5)

/-- A view with a placeholder entry for hash 9 and an unspent single-output
entry for hash 77; a block whose single transaction (hash 9, two outputs)
spends output 0 of transaction 77. -/
def witC2Store : TxStore :=
  TxStore.insert (TxStore.insert emptyTxStore 9 (missingEntry 9)) 77
    { tx := none, hash := 77, blockHeight := 0, spent := [false], err := none }

def witC2Btx : BlockTx := ⟨⟨[⟨⟨77, 0⟩⟩], [0, 1]⟩, 9⟩

def witC2Block : Block := { transactions := [witC2Btx], height := 4 }

def witC2Store' : TxStore := okStore (connectTransactions witC2Store witC2Block)

/-- A view containing transaction 5 with one unspent output and a block
whose single transaction (hash 9) spends output 0 of transaction 5. -/
def witC10Store : TxStore :=
  TxStore.insert emptyTxStore 5
    { tx := none, hash := 5, blockHeight := 0, spent := [false], err := none }

def witC10Block : Block := { transactions := [⟨⟨[⟨⟨5, 0⟩⟩], []⟩, 9⟩], height := 3 }

def witC10S1 : TxStore := okStore (connectTransactions witC10Store witC10Block)

def witC10S2 : TxStore := okStore (disconnectTransactions witC10Store witC10Block)

/-! ### Claims C8, C4, C5, C7, C1 -/

/-- What the reply loop stores for a hit: the reply's status, body and
height, and the defensive copy of its spent slice. -/
def hitEntry (txReply : TxReply) (td : txData) : txData :=
  { td with err := none, tx := some txReply.tx, blockHeight := txReply.height,
            spent := spentCopy txReply.txSpent }

def witC8Reply : TxReply :=
  { sha := 5, tx := ⟨[], [0]⟩, height := 2, txSpent := [true, false], err := none }

def witC8Store : TxStore := TxStore.insert emptyTxStore 5 (missingEntry 5)

def witC4Chain : BlockChain where
  getPrevNodeFromNode := fun _ => .ok none
  bestChain := none
  fetchTxByShaList := fun _ => []
  getReorganizeNodes := fun _ => ([], [])
  fetchBlockBySha := fun _ => .error (.storageErr 0)
  blockCache := fun _ => none

def witC5Chain : BlockChain where
  getPrevNodeFromNode := fun _ => .ok none
  bestChain := none
  fetchTxByShaList := fun _ => []
  getReorganizeNodes := fun _ => ([], [])
  fetchBlockBySha := fun _ => .error (.storageErr 0)
  blockCache := fun _ => none

def witC5Node : blockNode := ⟨1, 1⟩

def witC7Chain : BlockChain where
  getPrevNodeFromNode := fun _ => .ok (some ⟨2, 1⟩)
  bestChain := some ⟨1, 2⟩
  fetchTxByShaList := fun _ => []
  getReorganizeNodes := fun _ => ([], [⟨3, 3⟩])
  fetchBlockBySha := fun _ => .error (.storageErr 0)
  blockCache := fun _ => none

/-- C1 (counterexample): a requested hash created by a detached block ends
absent from the error-free view — not present and marked missing — so the
returned key set is strictly smaller than the requested set. -/
def cexC1Block : Block := { transactions := [⟨⟨[], []⟩, 100⟩], height := 1 }

def cexC1Chain : BlockChain where
  getPrevNodeFromNode := fun _ => .ok (some ⟨2, 1⟩)
  bestChain := some ⟨1, 2⟩
  fetchTxByShaList := fun _ => []
  getReorganizeNodes := fun _ => ([⟨3, 2⟩], [])
  fetchBlockBySha := fun _ => .ok cexC1Block
  blockCache := fun _ => none

/-- Whether the entry at `h` is present, for an error-free returned view. -/
def viewKeyStatus (r : Except GoPanic (Option TxStore × Option GoErr)) (h : Nat) :
    Option Bool :=
  match r with
  | .ok (some v, none) => some (v h).isSome
  | _ => none

def witC1Chain : BlockChain where
  getPrevNodeFromNode := fun _ => .ok none
  bestChain := none
  fetchTxByShaList := fun _ => []
  getReorganizeNodes := fun _ => ([], [])
  fetchBlockBySha := fun _ => .error (.storageErr 0)
  blockCache := fun _ => none

def witC1View : TxStore := baselineTxStore witC1Chain [7]

def witC6Block : Block :=
  { transactions := [⟨⟨[], [0]⟩, 1⟩, ⟨⟨[], [0]⟩, 10⟩, ⟨⟨[⟨⟨10, 0⟩⟩], []⟩, 11⟩],
    height := 5 }

def witC6Chain : BlockChain where
  getPrevNodeFromNode := fun _ => .ok none
  bestChain := none
  fetchTxByShaList := fun _ => []
  getReorganizeNodes := fun _ => ([], [])
  fetchBlockBySha := fun _ => .error (.storageErr 0)
  blockCache := fun _ => none

/-- The view of an error-free input resolution. -/
def okView (r : Except GoPanic (Option TxStore × Option GoErr)) : TxStore :=
  match r with
  | .ok (some v, _) => v
  | _ => emptyTxStore

def witC6View : TxStore := okView (fetchInputTransactions witC6Chain ⟨1, 5⟩ witC6Block)

theorem markSpent_some_of_eq (mark : Bool) (hash : Nat) (t : TxIn) (td : txData)
    (h : t.previousOutpoint.hash = hash) :
    markSpent mark hash t (some td) =
      some { td with spent := td.spent.set t.previousOutpoint.index mark } := by
  rw [markSpent, if_pos h]; rfl

theorem markSpent_of_ne (mark : Bool) (hash : Nat) (t : TxIn) (e : Option txData)
    (h : t.previousOutpoint.hash ≠ hash) :
    markSpent mark hash t e = e := by
  rw [markSpent, if_neg h]

theorem markSpends_append (mark : Bool) (hash : Nat) (xs ys : List TxIn) (e : Option txData) :
    markSpends mark hash (xs ++ ys) e = markSpends mark hash ys (markSpends mark hash xs e) := by
  induction xs generalizing e with
  | nil => rfl
  | cons t rest ih => simp only [List.cons_append, markSpends]; exact ih _

theorem markSpends_none (mark : Bool) (hash : Nat) (txIns : List TxIn) :
    markSpends mark hash txIns none = none := by
  induction txIns with
  | nil => rfl
  | cons t rest ih =>
    rw [markSpends]
    have h1 : markSpent mark hash t none = none := by
      rw [markSpent]; split <;> rfl
    rw [h1]; exact ih

theorem markSpends_isSome (mark : Bool) (hash : Nat) (txIns : List TxIn) (e : Option txData) :
    (markSpends mark hash txIns e).isSome = e.isSome := by
  induction txIns generalizing e with
  | nil => rfl
  | cons t rest ih =>
    rw [markSpends, ih]
    rw [markSpent]
    split
    · cases e <;> rfl
    · rfl

theorem markSpends_some (mark : Bool) (hash : Nat) (txIns : List TxIn) (td : txData) :
    markSpends mark hash txIns (some td) =
      some { td with spent := foldSetIdx mark (originIdxs hash txIns) td.spent } := by
  induction txIns generalizing td with
  | nil => rfl
  | cons t rest ih =>
    rw [markSpends]
    by_cases h : t.previousOutpoint.hash = hash
    · rw [markSpent_some_of_eq mark hash t td h, ih]
      simp [originIdxs, foldSetIdx, h]
    · rw [markSpent_of_ne mark hash t _ h, ih]
      simp [originIdxs, foldSetIdx, h]

/-- No input of `txIns` references `hash`, so the entry there is untouched. -/
theorem markSpends_not_referenced (mark : Bool) (hash : Nat) (txIns : List TxIn)
    (e : Option txData) (h : ∀ t ∈ txIns, t.previousOutpoint.hash ≠ hash) :
    markSpends mark hash txIns e = e := by
  induction txIns generalizing e with
  | nil => rfl
  | cons t rest ih =>
    rw [markSpends, markSpent_of_ne mark hash t e (h t (List.mem_cons_self t rest))]
    exact ih e (fun t' ht' => h t' (List.mem_cons_of_mem t ht'))

/-- The spend loop, when it does not panic, acts on every key as
`markSpends`. -/
theorem spendOrigins_char (mark : Bool) (txStore txStore' : TxStore) (txIns : List TxIn)
    (hok : spendOrigins mark txStore txIns = .ok txStore') :
    ∀ h, txStore' h = markSpends mark h txIns (txStore h) := by
  induction txIns generalizing txStore with
  | nil =>
    cases hok
    intro h; rfl
  | cons t rest ih =>
    intro h
    rw [markSpends]
    simp only [spendOrigins] at hok
    split at hok
    · rename_i originTx hstore
      split at hok
      · cases hok
      · rename_i spent' hset
        rw [ih _ hok h]
        congr 1
        rw [markSpent]
        unfold sliceAssign at hset
        split at hset
        · cases hset
          by_cases hh : t.previousOutpoint.hash = h
          · rw [if_pos hh, TxStore.insert]
            simp only [if_pos hh.symm]
            rw [hh] at hstore
            rw [hstore]
            rfl
          · rw [if_neg hh, TxStore.insert]
            simp only [if_neg (Ne.symm hh)]
        · cases hset
    · rename_i hstore
      rw [ih _ hok h]
      congr 1
      rw [markSpent]
      split
      · rename_i heq
        rw [heq] at hstore
        rw [hstore]
        rfl
      · rfl

theorem foldSetIdx_length (mark : Bool) (idxs : List Nat) (l : List Bool) :
    (foldSetIdx mark idxs l).length = l.length := by
  induction idxs generalizing l with
  | nil => rfl
  | cons i rest ih => rw [foldSetIdx, ih, List.length_set]

theorem foldSetIdx_getElem? (mark : Bool) (idxs : List Nat) (l : List Bool) (j : Nat) :
    (foldSetIdx mark idxs l)[j]? =
      if j ∈ idxs ∧ j < l.length then some mark else l[j]? := by
  induction idxs generalizing l with
  | nil => simp [foldSetIdx]
  | cons i rest ih =>
    rw [foldSetIdx, ih, List.length_set]
    by_cases hjr : j ∈ rest ∧ j < l.length
    · rw [if_pos hjr, if_pos ⟨List.mem_cons_of_mem i hjr.1, hjr.2⟩]
    · rw [if_neg hjr]
      by_cases hij : i = j
      · subst hij
        by_cases hlen : i < l.length
        · rw [if_pos ⟨List.mem_cons_self i rest, hlen⟩,
            List.getElem?_set_eq_of_lt mark hlen]
        · rw [if_neg (fun hc => hlen hc.2)]
          have h1 : (l.set i mark)[i]? = none :=
            List.getElem?_eq_none (by rw [List.length_set]; exact Nat.le_of_not_lt hlen)
          have h2 : l[i]? = none := List.getElem?_eq_none (Nat.le_of_not_lt hlen)
          rw [h1, h2]
      · rw [List.getElem?_set_ne hij]
        have : ¬(j ∈ i :: rest ∧ j < l.length) := by
          intro hc
          rcases List.mem_cons.mp hc.1 with he | hm
          · exact hij he.symm
          · exact hjr ⟨hm, hc.2⟩
        rw [if_neg this]

/-- Setting a list of indices to true and then, in the same order, back to
false restores the list, provided none of those indices held true at the
start. -/
theorem foldSetIdx_restore (idxs : List Nat) (l : List Bool)
    (h : ∀ i ∈ idxs, l[i]? ≠ some true) :
    foldSetIdx false idxs (foldSetIdx true idxs l) = l := by
  apply List.ext_getElem?
  intro j
  rw [foldSetIdx_getElem?, foldSetIdx_getElem?, foldSetIdx_length]
  by_cases hj : j ∈ idxs ∧ j < l.length
  · rw [if_pos hj]
    have : l[j]? = some l[j] := List.getElem?_eq_getElem hj.2
    cases hb : l[j] with
    | true => exact absurd (by rw [this, hb]) (h j hj.1)
    | false => rw [this, hb]
  · rw [if_neg hj, if_neg hj]

theorem markSpends_lenMap (mark : Bool) (hash : Nat) (txIns : List TxIn) (e : Option txData) :
    (markSpends mark hash txIns e).map (fun td => td.spent.length) =
      e.map fun td => td.spent.length := by
  cases e with
  | none => rw [markSpends_none]
  | some td => rw [markSpends_some]; simp [foldSetIdx_length]

theorem spendOrigins_lenMap (mark : Bool) (txStore txStore' : TxStore) (txIns : List TxIn)
    (hok : spendOrigins mark txStore txIns = .ok txStore') :
    lenMap txStore' = lenMap txStore := by
  funext h
  unfold lenMap
  rw [spendOrigins_char mark txStore txStore' txIns hok h, markSpends_lenMap]

theorem spendOrigins_isSome (mark : Bool) (txStore txStore' : TxStore) (txIns : List TxIn)
    (hok : spendOrigins mark txStore txIns = .ok txStore') (h : Nat) :
    (txStore' h).isSome = (txStore h).isSome := by
  rw [spendOrigins_char mark txStore txStore' txIns hok h, markSpends_isSome]

theorem spendOrigins_cons_none (mark : Bool) (t : TxIn) (rest : List TxIn) (s : TxStore)
    (hstore : s t.previousOutpoint.hash = none) :
    spendOrigins mark s (t :: rest) = spendOrigins mark s rest := by
  simp only [spendOrigins, hstore]

theorem spendOrigins_cons_some (mark : Bool) (t : TxIn) (rest : List TxIn) (s : TxStore)
    (originTx : txData) (hstore : s t.previousOutpoint.hash = some originTx) :
    spendOrigins mark s (t :: rest) =
      if t.previousOutpoint.index < originTx.spent.length then
        spendOrigins mark
          (s.insert t.previousOutpoint.hash
            { originTx with spent := originTx.spent.set t.previousOutpoint.index mark }) rest
      else .error .indexOutOfRange := by
  simp only [spendOrigins, hstore, sliceAssign]
  by_cases hlt : t.previousOutpoint.index < originTx.spent.length
  · rw [if_pos hlt, if_pos hlt]
  · rw [if_neg hlt, if_neg hlt]

/-- Inserting an entry with the same spent-slice length leaves the length
map unchanged. -/
theorem lenMap_insert_same (s : TxStore) (k : Nat) (old new : txData)
    (hstore : s k = some old) (hlen : new.spent.length = old.spent.length) :
    lenMap (s.insert k new) = lenMap s := by
  funext h
  unfold lenMap TxStore.insert
  by_cases hh : h = k
  · rw [if_pos hh, hh, hstore]
    simp [hlen]
  · rw [if_neg hh]

/-- A spend loop panics exactly when some input's write is out of bounds;
spent-slice lengths never change during the loop, so the check reads the
initial length map. -/
theorem spendOrigins_isOk (mark : Bool) (txIns : List TxIn) :
    ∀ txStore : TxStore,
      (spendOrigins mark txStore txIns).isOk = txIns.all (originInBounds (lenMap txStore)) := by
  induction txIns with
  | nil => intro s; rfl
  | cons t rest ih =>
    intro s
    rw [List.all_cons]
    cases hstore : s t.previousOutpoint.hash with
    | none =>
      rw [spendOrigins_cons_none mark t rest s hstore, ih s]
      have hhead : originInBounds (lenMap s) t = true := by
        unfold originInBounds lenMap
        rw [hstore]
        rfl
      rw [hhead, Bool.true_and]
    | some originTx =>
      rw [spendOrigins_cons_some mark t rest s originTx hstore]
      by_cases hlt : t.previousOutpoint.index < originTx.spent.length
      · rw [if_pos hlt, ih]
        have hhead : originInBounds (lenMap s) t = true := by
          unfold originInBounds lenMap
          rw [hstore]
          simpa using hlt
        rw [hhead, Bool.true_and,
          lenMap_insert_same s t.previousOutpoint.hash originTx _ hstore (by simp)]
      · rw [if_neg hlt]
        have hhead : originInBounds (lenMap s) t = false := by
          unfold originInBounds lenMap
          rw [hstore]
          simpa using hlt
        rw [hhead, Bool.false_and]
        rfl

/-! ### Characterization of `connectTransactions` and `disconnectTransactions` -/

theorem txListIns_cons (btx : BlockTx) (rest : List BlockTx) :
    txListIns (btx :: rest) = btx.tx.txIn ++ txListIns rest := by
  simp [txListIns]

theorem connectEntry_at_other (blockHeight : Int) (s : TxStore) (btx : BlockTx) (h : Nat)
    (hne : h ≠ btx.sha) : connectEntry blockHeight s btx h = s h := by
  cases hstore : s btx.sha with
  | some txD =>
    simp only [connectEntry, hstore]
    rw [TxStore.insert, if_neg hne]
  | none => simp only [connectEntry, hstore]

theorem connectEntry_isSome (blockHeight : Int) (s : TxStore) (btx : BlockTx) (h : Nat) :
    (connectEntry blockHeight s btx h).isSome = (s h).isSome := by
  cases hstore : s btx.sha with
  | some txD =>
    simp only [connectEntry, hstore]
    rw [TxStore.insert]
    by_cases hh : h = btx.sha
    · rw [if_pos hh, hh, hstore]; rfl
    · rw [if_neg hh]
  | none => simp only [connectEntry, hstore]

/-- The store after a `connectTxs` run has the same keys as before. -/
theorem connectTxs_isSome (blockHeight : Int) (txs : List BlockTx) :
    ∀ s s' : TxStore, connectTxs blockHeight s txs = .ok s' →
      ∀ h, (s' h).isSome = (s h).isSome := by
  induction txs with
  | nil => intro s s' hok h; cases hok; rfl
  | cons btx rest ih =>
    intro s s' hok h
    simp only [connectTxs] at hok
    split at hok
    · cases hok
    · rename_i s₁ hspend
      rw [ih _ _ hok h, spendOrigins_isSome _ _ _ _ hspend h, connectEntry_isSome]

/-- On a key that is not the hash of any of the block's transactions,
`connectTxs` acts exactly as the spend marks of all the block's inputs. -/
theorem connectTxs_off_block (blockHeight : Int) (txs : List BlockTx) :
    ∀ s s' : TxStore, connectTxs blockHeight s txs = .ok s' →
      ∀ h, h ∉ txs.map BlockTx.sha →
        s' h = markSpends true h (txListIns txs) (s h) := by
  induction txs with
  | nil => intro s s' hok h _; cases hok; rfl
  | cons btx rest ih =>
    intro s s' hok h hmem
    simp only [connectTxs] at hok
    split at hok
    · cases hok
    · rename_i s₁ hspend
      have hne : h ≠ btx.sha := by
        intro he; exact hmem (by rw [List.map_cons, he]; exact List.mem_cons_self _ _)
      have hrest : h ∉ rest.map BlockTx.sha := by
        intro hc; exact hmem (by rw [List.map_cons]; exact List.mem_cons_of_mem _ hc)
      rw [txListIns_cons, markSpends_append]
      rw [ih _ _ hok h hrest, spendOrigins_char _ _ _ _ hspend h,
        connectEntry_at_other blockHeight s btx h hne]

theorem disconnectTxs_erase_at (s : TxStore) (k h : Nat) :
    TxStore.erase s k h = if h = k then none else s h := rfl

/-- On a key that is not the hash of any of the block's transactions,
`disconnectTxs` acts exactly as the spend clears of all the block's
inputs. -/
theorem disconnectTxs_off_block (txs : List BlockTx) :
    ∀ s s' : TxStore, disconnectTxs s txs = .ok s' →
      ∀ h, h ∉ txs.map BlockTx.sha →
        s' h = markSpends false h (txListIns txs) (s h) := by
  induction txs with
  | nil => intro s s' hok h _; cases hok; rfl
  | cons btx rest ih =>
    intro s s' hok h hmem
    simp only [disconnectTxs] at hok
    split at hok
    · cases hok
    · rename_i s₁ hspend
      have hne : h ≠ btx.sha := by
        intro he; exact hmem (by rw [List.map_cons, he]; exact List.mem_cons_self _ _)
      have hrest : h ∉ rest.map BlockTx.sha := by
        intro hc; exact hmem (by rw [List.map_cons]; exact List.mem_cons_of_mem _ hc)
      rw [txListIns_cons, markSpends_append]
      rw [ih _ _ hok h hrest, spendOrigins_char _ _ _ _ hspend h,
        disconnectTxs_erase_at, if_neg hne]

/-- A `disconnectTxs` run never inserts: a key absent before stays absent. -/
theorem disconnectTxs_none_preserved (txs : List BlockTx) :
    ∀ s s' : TxStore, disconnectTxs s txs = .ok s' →
      ∀ h, s h = none → s' h = none := by
  induction txs with
  | nil => intro s s' hok h hn; cases hok; exact hn
  | cons btx rest ih =>
    intro s s' hok h hn
    simp only [disconnectTxs] at hok
    split at hok
    · cases hok
    · rename_i s₁ hspend
      apply ih _ _ hok h
      rw [spendOrigins_char _ _ _ _ hspend h]
      have : TxStore.erase s btx.sha h = none := by
        rw [disconnectTxs_erase_at]
        split
        · rfl
        · exact hn
      rw [this, markSpends_none]

/-- A key that is the hash of one of the block's transactions is absent
after `disconnectTxs`. -/
theorem disconnectTxs_erased (txs : List BlockTx) :
    ∀ s s' : TxStore, disconnectTxs s txs = .ok s' →
      ∀ h, h ∈ txs.map BlockTx.sha → s' h = none := by
  induction txs with
  | nil => intro s s' _ h hmem; simp at hmem
  | cons btx rest ih =>
    intro s s' hok h hmem
    simp only [disconnectTxs] at hok
    split at hok
    · cases hok
    · rename_i s₁ hspend
      rw [List.map_cons, List.mem_cons] at hmem
      rcases hmem with he | hm
      · apply disconnectTxs_none_preserved rest _ _ hok h
        rw [spendOrigins_char _ _ _ _ hspend h]
        have : TxStore.erase s btx.sha h = none := by
          rw [disconnectTxs_erase_at, if_pos he]
        rw [this, markSpends_none]
      · exact ih _ _ hok h hm

/-- Key set after `disconnectTxs`: the keys present before, minus the
hashes of the block's transactions. -/
theorem disconnectTxs_isSome (txs : List BlockTx) :
    ∀ s s' : TxStore, disconnectTxs s txs = .ok s' →
      ∀ h, (s' h).isSome = ((s h).isSome && !decide (h ∈ txs.map BlockTx.sha)) := by
  intro s s' hok h
  by_cases hmem : h ∈ txs.map BlockTx.sha
  · rw [disconnectTxs_erased txs s s' hok h hmem]
    simp [hmem]
  · rw [disconnectTxs_off_block txs s s' hok h hmem, markSpends_isSome]
    simp [hmem]

/-- Final entry of a connected block transaction, when the block's hashes
are distinct and no input of the block references a block transaction. -/
theorem connectTxs_on_block (blockHeight : Int) (txs : List BlockTx) :
    ∀ s s' : TxStore, connectTxs blockHeight s txs = .ok s' →
      (txs.map BlockTx.sha).Nodup →
      (∀ t ∈ txListIns txs, t.previousOutpoint.hash ∉ txs.map BlockTx.sha) →
      ∀ btx ∈ txs, ∀ td, s btx.sha = some td →
        s' btx.sha = some (refreshedEntry blockHeight btx td) := by
  induction txs with
  | nil => intro s s' _ _ _ btx hmem; simp at hmem
  | cons b rest ih =>
    intro s s' hok hnodup hnoin btx hmem td hstore
    simp only [connectTxs] at hok
    split at hok
    · cases hok
    · rename_i s₁ hspend
      rw [List.map_cons, List.nodup_cons] at hnodup
      have hnoin_b : ∀ t ∈ b.tx.txIn, t.previousOutpoint.hash ∉ (b :: rest).map BlockTx.sha := by
        intro t ht
        exact hnoin t (by rw [txListIns_cons]; exact List.mem_append_left _ ht)
      have hnoin_rest : ∀ t ∈ txListIns rest, t.previousOutpoint.hash ∉ rest.map BlockTx.sha := by
        intro t ht hc
        exact hnoin t (by rw [txListIns_cons]; exact List.mem_append_right _ ht)
          (by rw [List.map_cons]; exact List.mem_cons_of_mem _ hc)
      rcases List.mem_cons.mp hmem with he | hm
      · subst he
        have hb_mem : btx.sha ∈ (btx :: rest).map BlockTx.sha := by
          rw [List.map_cons]; exact List.mem_cons_self _ _
        have hentry : connectEntry blockHeight s btx btx.sha =
            some (refreshedEntry blockHeight btx td) := by
          simp only [connectEntry, hstore]
          rw [TxStore.insert, if_pos rfl]
          rfl
        have hs₁ : s₁ btx.sha = connectEntry blockHeight s btx btx.sha := by
          rw [spendOrigins_char _ _ _ _ hspend btx.sha]
          exact markSpends_not_referenced _ _ _ _
            (fun t ht he => hnoin_b t ht (he ▸ hb_mem))
        have hrest_noref_b : ∀ t ∈ txListIns rest, t.previousOutpoint.hash ≠ btx.sha := by
          intro t ht he
          exact hnoin t (by rw [txListIns_cons]; exact List.mem_append_right _ ht)
            (by rw [he, List.map_cons]; exact List.mem_cons_self _ _)
        have hfinal : s' btx.sha = s₁ btx.sha := by
          rw [connectTxs_off_block blockHeight rest s₁ s' hok btx.sha hnodup.1,
            markSpends_not_referenced _ _ _ _ hrest_noref_b]
        rw [hfinal, hs₁, hentry]
      · have hne : btx.sha ≠ b.sha := by
          intro he
          exact hnodup.1 (he ▸ (List.mem_map.mpr ⟨btx, hm, rfl⟩))
        have hb_noref : ∀ t ∈ b.tx.txIn, t.previousOutpoint.hash ≠ btx.sha := by
          intro t ht he
          exact hnoin_b t ht
            (by rw [he, List.map_cons]
                exact List.mem_cons_of_mem _ (List.mem_map.mpr ⟨btx, hm, rfl⟩))
        have hs₁ : s₁ btx.sha = some td := by
          rw [spendOrigins_char _ _ _ _ hspend btx.sha,
            markSpends_not_referenced _ _ _ _ hb_noref,
            connectEntry_at_other blockHeight s b btx.sha hne, hstore]
        exact ih s₁ s' hok hnodup.2 hnoin_rest btx hm td hs₁

/-- Every executed spend write of a panic-free `connectTxs` run on an
origin outside the block was in range with respect to the initial store. -/
theorem connectTxs_inBounds (blockHeight : Int) (txs : List BlockTx) :
    ∀ s s' : TxStore, connectTxs blockHeight s txs = .ok s' →
      ∀ btx ∈ txs, ∀ t ∈ btx.tx.txIn, t.previousOutpoint.hash ∉ txs.map BlockTx.sha →
        ∀ td, s t.previousOutpoint.hash = some td →
          t.previousOutpoint.index < td.spent.length := by
  induction txs with
  | nil => intro s s' _ btx hmem; simp at hmem
  | cons b rest ih =>
    intro s s' hok btx hmem t ht hnoref td hstore
    simp only [connectTxs] at hok
    split at hok
    · cases hok
    · rename_i s₁ hspend
      have hne : t.previousOutpoint.hash ≠ b.sha := by
        intro he
        exact hnoref (by rw [List.map_cons, he]; exact List.mem_cons_self _ _)
      have hceq : connectEntry blockHeight s b t.previousOutpoint.hash = some td := by
        rw [connectEntry_at_other blockHeight s b _ hne, hstore]
      rcases List.mem_cons.mp hmem with he | hm
      · subst he
        have hall := spendOrigins_isOk true btx.tx.txIn (connectEntry blockHeight s btx)
        rw [hspend] at hall
        have hbool := (List.all_eq_true.mp hall.symm) t ht
        unfold originInBounds lenMap at hbool
        rw [hceq] at hbool
        simpa using hbool
      · have hrest : t.previousOutpoint.hash ∉ rest.map BlockTx.sha := by
          intro hc
          exact hnoref (by rw [List.map_cons]; exact List.mem_cons_of_mem _ hc)
        have hlen₁ : lenMap s₁ t.previousOutpoint.hash = some td.spent.length := by
          rw [spendOrigins_lenMap _ _ _ _ hspend]
          unfold lenMap
          rw [hceq]
          rfl
        cases hs₁ : s₁ t.previousOutpoint.hash with
        | none => rw [lenMap, hs₁] at hlen₁; cases hlen₁
        | some td' =>
          have hlen : td'.spent.length = td.spent.length := by
            rw [lenMap, hs₁] at hlen₁
            simpa using hlen₁
          rw [← hlen]
          exact ih s₁ s' hok btx hm t ht hrest td' hs₁

theorem lenMap_connectEntry (blockHeight : Int) (s : TxStore) (btx : BlockTx) :
    lenMap (connectEntry blockHeight s btx) = refreshLen (lenMap s) btx := by
  funext h
  unfold refreshLen
  cases hstore : s btx.sha with
  | some txD =>
    simp only [connectEntry, hstore]
    unfold lenMap TxStore.insert
    by_cases hh : h = btx.sha
    · rw [if_pos hh]
      rw [if_pos ⟨hh, by rw [hh, hstore]; rfl⟩]
      simp
    · rw [if_neg hh, if_neg (fun hc => hh hc.1)]
  | none =>
    simp only [connectEntry, hstore]
    by_cases hh : h = btx.sha
    · rw [if_neg]
      intro hc
      rw [lenMap, hh, hstore] at hc
      exact absurd hc.2 (by simp)
    · rw [if_neg (fun hc => hh hc.1)]

theorem lenMap_erase (s : TxStore) (k : Nat) :
    lenMap (TxStore.erase s k) = eraseLen (lenMap s) k := by
  funext h
  unfold lenMap TxStore.erase eraseLen
  by_cases hh : h = k
  · rw [if_pos hh, if_pos hh]; rfl
  · rw [if_neg hh, if_neg hh]

theorem connectTxs_cons_ok (blockHeight : Int) (btx : BlockTx) (rest : List BlockTx)
    (s s₁ : TxStore)
    (hspend : spendOrigins true (connectEntry blockHeight s btx) btx.tx.txIn = .ok s₁) :
    connectTxs blockHeight s (btx :: rest) = connectTxs blockHeight s₁ rest := by
  simp only [connectTxs, hspend]

theorem connectTxs_cons_err (blockHeight : Int) (btx : BlockTx) (rest : List BlockTx)
    (s : TxStore) (p : GoPanic)
    (hspend : spendOrigins true (connectEntry blockHeight s btx) btx.tx.txIn = .error p) :
    connectTxs blockHeight s (btx :: rest) = .error p := by
  simp only [connectTxs, hspend]

theorem disconnectTxs_cons_ok (btx : BlockTx) (rest : List BlockTx) (s s₁ : TxStore)
    (hspend : spendOrigins false (TxStore.erase s btx.sha) btx.tx.txIn = .ok s₁) :
    disconnectTxs s (btx :: rest) = disconnectTxs s₁ rest := by
  simp only [disconnectTxs, hspend]

theorem disconnectTxs_cons_err (btx : BlockTx) (rest : List BlockTx) (s : TxStore) (p : GoPanic)
    (hspend : spendOrigins false (TxStore.erase s btx.sha) btx.tx.txIn = .error p) :
    disconnectTxs s (btx :: rest) = .error p := by
  simp only [disconnectTxs, hspend]

/-- `connectTransactions` completes without a panic exactly when
`connectSpendSafe` holds of the initial length map. -/
theorem connectTxs_isOk (blockHeight : Int) (txs : List BlockTx) :
    ∀ s : TxStore,
      (connectTxs blockHeight s txs).isOk = connectSpendSafe (lenMap s) txs := by
  induction txs with
  | nil => intro s; rfl
  | cons btx rest ih =>
    intro s
    rw [connectSpendSafe, ← lenMap_connectEntry blockHeight s btx]
    cases hspend : spendOrigins true (connectEntry blockHeight s btx) btx.tx.txIn with
    | error p =>
      rw [connectTxs_cons_err blockHeight btx rest s p hspend]
      have hall := spendOrigins_isOk true btx.tx.txIn (connectEntry blockHeight s btx)
      rw [hspend] at hall
      rw [← hall]
      rfl
    | ok s₁ =>
      rw [connectTxs_cons_ok blockHeight btx rest s s₁ hspend, ih s₁,
        spendOrigins_lenMap _ _ _ _ hspend]
      have hall := spendOrigins_isOk true btx.tx.txIn (connectEntry blockHeight s btx)
      rw [hspend] at hall
      rw [← hall]
      rfl

/-- `disconnectTransactions` completes without a panic exactly when
`disconnectSpendSafe` holds of the initial length map. -/
theorem disconnectTxs_isOk (txs : List BlockTx) :
    ∀ s : TxStore,
      (disconnectTxs s txs).isOk = disconnectSpendSafe (lenMap s) txs := by
  induction txs with
  | nil => intro s; rfl
  | cons btx rest ih =>
    intro s
    rw [disconnectSpendSafe, ← lenMap_erase s btx.sha]
    cases hspend : spendOrigins false (TxStore.erase s btx.sha) btx.tx.txIn with
    | error p =>
      rw [disconnectTxs_cons_err btx rest s p hspend]
      have hall := spendOrigins_isOk false btx.tx.txIn (TxStore.erase s btx.sha)
      rw [hspend] at hall
      rw [← hall]
      rfl
    | ok s₁ =>
      rw [disconnectTxs_cons_ok btx rest s s₁ hspend, ih s₁,
        spendOrigins_lenMap _ _ _ _ hspend]
      have hall := spendOrigins_isOk false btx.tx.txIn (TxStore.erase s btx.sha)
      rw [hspend] at hall
      rw [← hall]
      rfl

theorem connectEntry_at (blockHeight : Int) (s : TxStore) (btx : BlockTx) (h : Nat) :
    connectEntry blockHeight s btx h =
      if h = btx.sha then (s h).map (fun td => refreshedEntry blockHeight btx td)
      else s h := by
  by_cases hh : h = btx.sha
  · rw [if_pos hh]
    subst hh
    cases hstore : s btx.sha with
    | some txD =>
      simp only [connectEntry, hstore]
      rw [TxStore.insert, if_pos rfl]
      rfl
    | none => simp only [connectEntry, hstore]; rfl
  · rw [if_neg hh]
    exact connectEntry_at_other blockHeight s btx h hh

theorem connectEntriesPhase_congr_at (blockHeight : Int) (txs : List BlockTx) :
    ∀ s s₁ : TxStore, ∀ h, s h = s₁ h →
      connectEntriesPhase blockHeight s txs h = connectEntriesPhase blockHeight s₁ txs h := by
  induction txs with
  | nil => intro s s₁ h he; exact he
  | cons btx rest ih =>
    intro s s₁ h he
    rw [connectEntriesPhase, connectEntriesPhase]
    apply ih
    rw [connectEntry_at, connectEntry_at]
    by_cases hh : h = btx.sha
    · rw [if_pos hh, if_pos hh]
      subst hh
      rw [he]
    · rw [if_neg hh, if_neg hh]
      exact he

theorem connectEntriesPhase_at_other (blockHeight : Int) (txs : List BlockTx) :
    ∀ s : TxStore, ∀ h, h ∉ txs.map BlockTx.sha →
      connectEntriesPhase blockHeight s txs h = s h := by
  induction txs with
  | nil => intro s h _; rfl
  | cons btx rest ih =>
    intro s h hmem
    have hne : h ≠ btx.sha := by
      intro he; exact hmem (by rw [List.map_cons, he]; exact List.mem_cons_self _ _)
    have hrest : h ∉ rest.map BlockTx.sha := by
      intro hc; exact hmem (by rw [List.map_cons]; exact List.mem_cons_of_mem _ hc)
    rw [connectEntriesPhase, ih _ h hrest, connectEntry_at_other blockHeight s btx h hne]

theorem originInBounds_congr (lens₁ lens₂ : Nat → Option Nat) (t : TxIn)
    (he : lens₁ t.previousOutpoint.hash = lens₂ t.previousOutpoint.hash) :
    originInBounds lens₁ t = originInBounds lens₂ t := by
  unfold originInBounds
  rw [he]

theorem spendOrigins_append (mark : Bool) (xs ys : List TxIn) :
    ∀ s : TxStore, spendOrigins mark s (xs ++ ys) =
      match spendOrigins mark s xs with
      | .ok s₂ => spendOrigins mark s₂ ys
      | .error p => .error p := by
  induction xs with
  | nil => intro s; rfl
  | cons t xs ih =>
    intro s
    rw [List.cons_append]
    cases hstore : s t.previousOutpoint.hash with
    | none =>
      rw [spendOrigins_cons_none mark t (xs ++ ys) s hstore,
        spendOrigins_cons_none mark t xs s hstore, ih s]
    | some originTx =>
      rw [spendOrigins_cons_some mark t (xs ++ ys) s originTx hstore,
        spendOrigins_cons_some mark t xs s originTx hstore]
      by_cases hlt : t.previousOutpoint.index < originTx.spent.length
      · rw [if_pos hlt, if_pos hlt, ih]
      · rw [if_neg hlt, if_neg hlt]

/-- Entry updates of transactions none of `ins` references commute with the
spend marks of `ins`. -/
theorem spendOrigins_entriesPhase_swap (mark : Bool) (blockHeight : Int)
    (txs : List BlockTx) (ins : List TxIn) (s s₁ : TxStore)
    (hspend : spendOrigins mark s ins = .ok s₁)
    (hnoref : ∀ t ∈ ins, t.previousOutpoint.hash ∉ txs.map BlockTx.sha) :
    spendOrigins mark (connectEntriesPhase blockHeight s txs) ins =
      .ok (connectEntriesPhase blockHeight s₁ txs) := by
  have hlens : ∀ t ∈ ins,
      lenMap (connectEntriesPhase blockHeight s txs) t.previousOutpoint.hash =
        lenMap s t.previousOutpoint.hash := by
    intro t ht
    unfold lenMap
    rw [connectEntriesPhase_at_other blockHeight txs s _ (hnoref t ht)]
  have hok₁ : (spendOrigins mark s ins).isOk = true := by rw [hspend]; rfl
  rw [spendOrigins_isOk] at hok₁
  have hok₂ : (spendOrigins mark (connectEntriesPhase blockHeight s txs) ins).isOk = true := by
    rw [spendOrigins_isOk]
    rw [List.all_eq_true] at hok₁ ⊢
    intro t ht
    rw [originInBounds_congr _ _ t (hlens t ht)]
    exact hok₁ t ht
  cases hrun : spendOrigins mark (connectEntriesPhase blockHeight s txs) ins with
  | error p => rw [hrun] at hok₂; cases hok₂
  | ok s₂ =>
    congr 1
    funext h
    rw [spendOrigins_char _ _ _ _ hrun h]
    by_cases hmem : h ∈ txs.map BlockTx.sha
    · have hnoref_h : ∀ t ∈ ins, t.previousOutpoint.hash ≠ h := by
        intro t ht he; exact hnoref t ht (he ▸ hmem)
      rw [markSpends_not_referenced _ _ _ _ hnoref_h]
      apply connectEntriesPhase_congr_at
      rw [spendOrigins_char _ _ _ _ hspend h,
        markSpends_not_referenced _ _ _ _ hnoref_h]
    · rw [connectEntriesPhase_at_other blockHeight txs s h hmem,
        connectEntriesPhase_at_other blockHeight txs s₁ h hmem,
        spendOrigins_char _ _ _ _ hspend h]

/-- When no input of the block references a block transaction, the
interleaved connect run equals the phase-separated one. -/
theorem connectTxs_phased (blockHeight : Int) (txs : List BlockTx) :
    ∀ s s' : TxStore, connectTxs blockHeight s txs = .ok s' →
      (∀ t ∈ txListIns txs, t.previousOutpoint.hash ∉ txs.map BlockTx.sha) →
      spendOrigins true (connectEntriesPhase blockHeight s txs) (txListIns txs) = .ok s' := by
  induction txs with
  | nil => intro s s' hok _; cases hok; rfl
  | cons btx rest ih =>
    intro s s' hok hnoin
    simp only [connectTxs] at hok
    split at hok
    · cases hok
    · rename_i s₁ hspend
      have hnoin_b : ∀ t ∈ btx.tx.txIn, t.previousOutpoint.hash ∉ rest.map BlockTx.sha := by
        intro t ht hc
        exact hnoin t (by rw [txListIns_cons]; exact List.mem_append_left _ ht)
          (by rw [List.map_cons]; exact List.mem_cons_of_mem _ hc)
      have hnoin_rest : ∀ t ∈ txListIns rest, t.previousOutpoint.hash ∉ rest.map BlockTx.sha := by
        intro t ht hc
        exact hnoin t (by rw [txListIns_cons]; exact List.mem_append_right _ ht)
          (by rw [List.map_cons]; exact List.mem_cons_of_mem _ hc)
      rw [txListIns_cons, connectEntriesPhase, spendOrigins_append]
      rw [spendOrigins_entriesPhase_swap true blockHeight rest btx.tx.txIn
        (connectEntry blockHeight s btx) s₁ hspend hnoin_b]
      exact ih s₁ s' hok hnoin_rest

/-! ### Key-set and invariant lemmas for `fetchTxList` -/

theorem insert_isSome_of_present (s : TxStore) (k : Nat) (old v : txData)
    (hstore : s k = some old) (h : Nat) :
    ((s.insert k v) h).isSome = (s h).isSome := by
  unfold TxStore.insert
  by_cases hh : h = k
  · rw [if_pos hh, hh, hstore]; rfl
  · rw [if_neg hh]

theorem initTxStore_foldl_isSome (txList : List Nat) :
    ∀ s : TxStore, ∀ h : Nat,
      ((txList.foldl (fun s hash => s.insert hash (missingEntry hash)) s) h).isSome =
        (decide (h ∈ txList) || (s h).isSome) := by
  induction txList with
  | nil => intro s h; simp
  | cons x rest ih =>
    intro s h
    rw [List.foldl_cons, ih]
    by_cases hx : h = x
    · subst hx
      have : ((s.insert h (missingEntry h)) h).isSome = true := by
        unfold TxStore.insert
        rw [if_pos rfl]
        rfl
      simp [this]
    · have : (s.insert x (missingEntry x)) h = s h := by
        unfold TxStore.insert
        rw [if_neg hx]
      rw [this]
      simp [List.mem_cons, hx]

theorem initTxStore_isSome (txList : List Nat) (h : Nat) :
    ((initTxStore txList) h).isSome = decide (h ∈ txList) := by
  unfold initTxStore
  rw [initTxStore_foldl_isSome]
  simp [emptyTxStore]

theorem applyReply_isSome (s : TxStore) (r : TxReply) (h : Nat) :
    ((applyReply s r) h).isSome = (s h).isSome := by
  unfold applyReply
  cases hstore : s r.sha with
  | none => rfl
  | some txD =>
    cases r.err with
    | none => exact insert_isSome_of_present s r.sha txD _ hstore h
    | some e => exact insert_isSome_of_present s r.sha txD _ hstore h

theorem applyReplies_isSome (rs : List TxReply) :
    ∀ s : TxStore, ∀ h : Nat, ((applyReplies s rs) h).isSome = (s h).isSome := by
  induction rs with
  | nil => intro s h; rfl
  | cons r rest ih =>
    intro s h
    rw [applyReplies, ih, applyReply_isSome]

theorem baselineTxStore_isSome (b : BlockChain) (txList : List Nat) (h : Nat) :
    ((baselineTxStore b txList) h).isSome = decide (h ∈ txList) := by
  unfold baselineTxStore
  rw [applyReplies_isSome, initTxStore_isSome]

/-- Key set after the detach loop: the keys present before, minus the
hashes of the disconnected blocks' transactions. -/
theorem detachBlocks_isSome (b : BlockChain) (nodes : List blockNode) :
    ∀ s s' : TxStore, detachBlocks b s nodes = .ok (.ok s') →
      ∀ h, (s' h).isSome = ((s h).isSome && !decide (h ∈ detachListShas b nodes)) := by
  induction nodes with
  | nil => intro s s' hok h; cases hok; simp [detachListShas]
  | cons n rest ih =>
    intro s s' hok h
    cases hfetch : b.fetchBlockBySha n.hash with
    | error e =>
      simp only [detachBlocks, hfetch] at hok
      cases hok
    | ok block =>
      simp only [detachListShas, hfetch]
      simp only [detachBlocks, hfetch] at hok
      cases hdisc : disconnectTransactions s block with
      | error p => rw [hdisc] at hok; cases hok
      | ok s₁ =>
        rw [hdisc] at hok
        rw [ih s₁ s' hok h, disconnectTxs_isSome block.transactions s s₁ hdisc h,
          Bool.and_assoc]
        by_cases h1 : h ∈ blockShas block
        · simp [blockShas, List.mem_append, h1] at *
        · by_cases h2 : h ∈ detachListShas b rest
          · simp [blockShas, List.mem_append, h1, h2] at *
          · simp [blockShas, List.mem_append, h1, h2] at *

theorem attachBlocks_isSome (b : BlockChain) (nodes : List blockNode) :
    ∀ s s' : TxStore, attachBlocks b s nodes = .ok (.ok s') →
      ∀ h, (s' h).isSome = (s h).isSome := by
  induction nodes with
  | nil => intro s s' hok h; cases hok; rfl
  | cons n rest ih =>
    intro s s' hok h
    cases hcache : b.blockCache n.hash with
    | none =>
      simp only [attachBlocks, hcache] at hok
      cases hok
    | some block =>
      simp only [attachBlocks, hcache] at hok
      cases hconn : connectTransactions s block with
      | error p => rw [hconn] at hok; cases hok
      | ok s₁ =>
        rw [hconn] at hok
        rw [ih s₁ s' hok h, connectTxs_isSome block.height block.transactions s s₁ hconn h]

theorem attachBlocks_append (b : BlockChain) (xs ys : List blockNode) :
    ∀ s : TxStore, attachBlocks b s (xs ++ ys) =
      match attachBlocks b s xs with
      | .ok (.ok s₁) => attachBlocks b s₁ ys
      | .ok (.error e) => .ok (.error e)
      | .error p => .error p := by
  induction xs with
  | nil => intro s; rfl
  | cons n xs ih =>
    intro s
    rw [List.cons_append]
    cases hcache : b.blockCache n.hash with
    | none => simp only [attachBlocks, hcache]
    | some block =>
      simp only [attachBlocks, hcache]
      cases hconn : connectTransactions s block with
      | error p => simp only [hconn]
      | ok s₁ => simp only [hconn]; exact ih s₁

/-! ### The hash-key invariant

Every store the resolver builds keys each entry by that entry's own `hash`
field; this is what makes the merge loop of `fetchInputTransactions` a
pointwise override (see `mergeNeeded`). -/

theorem hashKeyed_insert (s : TxStore) (k : Nat) (v : txData)
    (hk : hashKeyed s) (hv : v.hash = k) : hashKeyed (s.insert k v) := by
  intro h td hstore
  unfold TxStore.insert at hstore
  by_cases hh : h = k
  · rw [if_pos hh] at hstore
    rw [← Option.some.inj hstore, hv, hh]
  · rw [if_neg hh] at hstore
    exact hk h td hstore

theorem hashKeyed_erase (s : TxStore) (k : Nat) (hk : hashKeyed s) :
    hashKeyed (TxStore.erase s k) := by
  intro h td hstore
  unfold TxStore.erase at hstore
  by_cases hh : h = k
  · rw [if_pos hh] at hstore; cases hstore
  · rw [if_neg hh] at hstore
    exact hk h td hstore

theorem hashKeyed_initTxStore (txList : List Nat) : hashKeyed (initTxStore txList) := by
  unfold initTxStore
  have : ∀ s : TxStore, hashKeyed s →
      hashKeyed (txList.foldl (fun s hash => s.insert hash (missingEntry hash)) s) := by
    induction txList with
    | nil => intro s hs; exact hs
    | cons x rest ih =>
      intro s hs
      rw [List.foldl_cons]
      exact ih _ (hashKeyed_insert s x (missingEntry x) hs rfl)
  exact this emptyTxStore (fun h td hstore => by cases hstore)

theorem hashKeyed_applyReply (s : TxStore) (r : TxReply) (hk : hashKeyed s) :
    hashKeyed (applyReply s r) := by
  unfold applyReply
  cases hstore : s r.sha with
  | none => exact hk
  | some txD =>
    have htd : txD.hash = r.sha := hk r.sha txD hstore
    cases r.err with
    | none => exact hashKeyed_insert s r.sha _ hk htd
    | some e => exact hashKeyed_insert s r.sha _ hk htd

theorem hashKeyed_applyReplies (rs : List TxReply) :
    ∀ s : TxStore, hashKeyed s → hashKeyed (applyReplies s rs) := by
  induction rs with
  | nil => intro s hs; exact hs
  | cons r rest ih =>
    intro s hs
    rw [applyReplies]
    exact ih _ (hashKeyed_applyReply s r hs)

theorem hashKeyed_baseline (b : BlockChain) (txList : List Nat) :
    hashKeyed (baselineTxStore b txList) :=
  hashKeyed_applyReplies _ _ (hashKeyed_initTxStore txList)

theorem hashKeyed_markSpends (mark : Bool) (txIns : List TxIn) (e : Option txData)
    (h : Nat) (he : ∀ td, e = some td → td.hash = h) :
    ∀ td', markSpends mark h txIns e = some td' → td'.hash = h := by
  intro td' hmark
  cases e with
  | none => rw [markSpends_none] at hmark; cases hmark
  | some td =>
    rw [markSpends_some] at hmark
    rw [← Option.some.inj hmark]
    exact he td rfl

theorem hashKeyed_spendOrigins (mark : Bool) (s s' : TxStore) (txIns : List TxIn)
    (hok : spendOrigins mark s txIns = .ok s') (hk : hashKeyed s) : hashKeyed s' := by
  intro h td hstore
  rw [spendOrigins_char mark s s' txIns hok h] at hstore
  exact hashKeyed_markSpends mark txIns (s h) h (fun td₀ h₀ => hk h td₀ h₀) td hstore

theorem hashKeyed_connectEntry (blockHeight : Int) (s : TxStore) (btx : BlockTx)
    (hk : hashKeyed s) : hashKeyed (connectEntry blockHeight s btx) := by
  intro h td hstore
  rw [connectEntry_at] at hstore
  by_cases hh : h = btx.sha
  · rw [if_pos hh] at hstore
    cases hs : s h with
    | none => rw [hs] at hstore; cases hstore
    | some td₀ =>
      rw [hs] at hstore
      rw [← Option.some.inj hstore]
      exact hk h td₀ hs
  · rw [if_neg hh] at hstore
    exact hk h td hstore

theorem hashKeyed_connectTxs (blockHeight : Int) (txs : List BlockTx) :
    ∀ s s' : TxStore, connectTxs blockHeight s txs = .ok s' →
      hashKeyed s → hashKeyed s' := by
  induction txs with
  | nil => intro s s' hok hk; cases hok; exact hk
  | cons btx rest ih =>
    intro s s' hok hk
    simp only [connectTxs] at hok
    split at hok
    · cases hok
    · rename_i s₁ hspend
      exact ih s₁ s' hok
        (hashKeyed_spendOrigins true _ s₁ _ hspend
          (hashKeyed_connectEntry blockHeight s btx hk))

theorem hashKeyed_disconnectTxs (txs : List BlockTx) :
    ∀ s s' : TxStore, disconnectTxs s txs = .ok s' →
      hashKeyed s → hashKeyed s' := by
  induction txs with
  | nil => intro s s' hok hk; cases hok; exact hk
  | cons btx rest ih =>
    intro s s' hok hk
    simp only [disconnectTxs] at hok
    split at hok
    · cases hok
    · rename_i s₁ hspend
      exact ih s₁ s' hok
        (hashKeyed_spendOrigins false _ s₁ _ hspend (hashKeyed_erase s btx.sha hk))

theorem hashKeyed_detachBlocks (b : BlockChain) (nodes : List blockNode) :
    ∀ s s' : TxStore, detachBlocks b s nodes = .ok (.ok s') →
      hashKeyed s → hashKeyed s' := by
  induction nodes with
  | nil => intro s s' hok hk; cases hok; exact hk
  | cons n rest ih =>
    intro s s' hok hk
    cases hfetch : b.fetchBlockBySha n.hash with
    | error e => simp only [detachBlocks, hfetch] at hok; cases hok
    | ok block =>
      simp only [detachBlocks, hfetch] at hok
      cases hdisc : disconnectTransactions s block with
      | error p => rw [hdisc] at hok; cases hok
      | ok s₁ =>
        rw [hdisc] at hok
        exact ih s₁ s' hok (hashKeyed_disconnectTxs block.transactions s s₁ hdisc hk)

theorem hashKeyed_attachBlocks (b : BlockChain) (nodes : List blockNode) :
    ∀ s s' : TxStore, attachBlocks b s nodes = .ok (.ok s') →
      hashKeyed s → hashKeyed s' := by
  induction nodes with
  | nil => intro s s' hok hk; cases hok; exact hk
  | cons n rest ih =>
    intro s s' hok hk
    cases hcache : b.blockCache n.hash with
    | none => simp only [attachBlocks, hcache] at hok; cases hok
    | some block =>
      simp only [attachBlocks, hcache] at hok
      cases hconn : connectTransactions s block with
      | error p => rw [hconn] at hok; cases hok
      | ok s₁ =>
        rw [hconn] at hok
        exact ih s₁ s' hok (hashKeyed_connectTxs block.height block.transactions s s₁ hconn hk)

/-! ### Stepping lemmas for `fetchTxList` -/

theorem fetchTxList_prev_error (b : BlockChain) (node : blockNode) (txList : List Nat)
    (e : GoErr) (hprev : b.getPrevNodeFromNode node = .error e) :
    fetchTxList b node txList = .ok (none, some e) := by
  simp only [fetchTxList, hprev]

theorem fetchTxList_shortcut_eq (b : BlockChain) (node : blockNode) (txList : List Nat)
    (prevNode : Option blockNode)
    (hprev : b.getPrevNodeFromNode node = .ok prevNode)
    (hshort : mainChainShortcut b prevNode = true) :
    fetchTxList b node txList = .ok (some (baselineTxStore b txList), none) := by
  simp only [fetchTxList, hprev, hshort, if_true]

theorem fetchTxList_reorg (b : BlockChain) (node : blockNode) (txList : List Nat)
    (prevNode : Option blockNode)
    (hprev : b.getPrevNodeFromNode node = .ok prevNode)
    (hshort : mainChainShortcut b prevNode = false) :
    fetchTxList b node txList =
      match detachBlocks b (baselineTxStore b txList) (b.getReorganizeNodes prevNode).1 with
      | .error p => .error p
      | .ok (.error e) => .ok (none, some e)
      | .ok (.ok txStore₁) =>
        if (b.getReorganizeNodes prevNode).2.length = 0 then .ok (some txStore₁, none)
        else
          match attachBlocks b txStore₁ (b.getReorganizeNodes prevNode).2 with
          | .error p => .error p
          | .ok (.error e) => .ok (none, some e)
          | .ok (.ok txStore₂) => .ok (some txStore₂, none) := by
  simp only [fetchTxList, hprev, hshort, Bool.false_eq_true, if_false]

theorem fetchDetachedShas_shortcut (b : BlockChain) (node : blockNode)
    (prevNode : Option blockNode)
    (hprev : b.getPrevNodeFromNode node = .ok prevNode)
    (hshort : mainChainShortcut b prevNode = true) :
    fetchDetachedShas b node = [] := by
  simp only [fetchDetachedShas, hprev, hshort, if_true]

theorem fetchDetachedShas_reorg (b : BlockChain) (node : blockNode)
    (prevNode : Option blockNode)
    (hprev : b.getPrevNodeFromNode node = .ok prevNode)
    (hshort : mainChainShortcut b prevNode = false) :
    fetchDetachedShas b node = detachListShas b (b.getReorganizeNodes prevNode).1 := by
  simp only [fetchDetachedShas, hprev, hshort, Bool.false_eq_true, if_false]

/-- Shape of every successful `fetchTxList` run: the returned view is the
baseline (shortcut), or the baseline with a full detach pass and possibly a
full attach pass applied. -/
theorem fetchTxList_ok_view (b : BlockChain) (node : blockNode) (txList : List Nat)
    (v : TxStore) (hok : fetchTxList b node txList = .ok (some v, none)) :
    (v = baselineTxStore b txList ∧ fetchDetachedShas b node = []) ∨
    (∃ prevNode s₁,
        b.getPrevNodeFromNode node = .ok prevNode ∧
        mainChainShortcut b prevNode = false ∧
        detachBlocks b (baselineTxStore b txList) (b.getReorganizeNodes prevNode).1 =
          .ok (.ok s₁) ∧
        fetchDetachedShas b node = detachListShas b (b.getReorganizeNodes prevNode).1 ∧
        (v = s₁ ∨ attachBlocks b s₁ (b.getReorganizeNodes prevNode).2 = .ok (.ok v))) := by
  cases hprev : b.getPrevNodeFromNode node with
  | error e =>
    rw [fetchTxList_prev_error b node txList e hprev] at hok
    exact absurd hok (by simp)
  | ok prevNode =>
    by_cases hshort : mainChainShortcut b prevNode = true
    · rw [fetchTxList_shortcut_eq b node txList prevNode hprev hshort] at hok
      have h1 := congrArg Prod.fst (Except.ok.inj hok)
      exact Or.inl ⟨(Option.some.inj h1).symm,
        fetchDetachedShas_shortcut b node prevNode hprev hshort⟩
    · rw [Bool.not_eq_true] at hshort
      rw [fetchTxList_reorg b node txList prevNode hprev hshort] at hok
      cases hdet : detachBlocks b (baselineTxStore b txList)
          (b.getReorganizeNodes prevNode).1 with
      | error p => rw [hdet] at hok; exact absurd hok (by simp)
      | ok inner =>
        cases inner with
        | error e => simp only [hdet] at hok; exact absurd hok (by simp)
        | ok s₁ =>
          simp only [hdet] at hok
          refine Or.inr ⟨prevNode, s₁, rfl, hshort, hdet,
            fetchDetachedShas_reorg b node prevNode hprev hshort, ?_⟩
          by_cases hlen : (b.getReorganizeNodes prevNode).2.length = 0
          · rw [if_pos hlen] at hok
            have h1 := congrArg Prod.fst (Except.ok.inj hok)
            exact Or.inl (Option.some.inj h1).symm
          · rw [if_neg hlen] at hok
            cases hatt : attachBlocks b s₁ (b.getReorganizeNodes prevNode).2 with
            | error p => rw [hatt] at hok; exact absurd hok (by simp)
            | ok inner₂ =>
              cases inner₂ with
              | error e => simp only [hatt] at hok; exact absurd hok (by simp)
              | ok s₂ =>
                simp only [hatt] at hok
                have h1 := congrArg Prod.fst (Except.ok.inj hok)
                exact Or.inr (by rw [Option.some.inj h1])

/-- Key set of every successful `fetchTxList` run: the requested hashes,
minus the hashes of the transactions of the disconnected blocks. -/
theorem fetchTxList_keys (b : BlockChain) (node : blockNode) (txList : List Nat)
    (v : TxStore) (hok : fetchTxList b node txList = .ok (some v, none)) :
    ∀ h, (v h).isSome =
      (decide (h ∈ txList) && !decide (h ∈ fetchDetachedShas b node)) := by
  intro h
  rcases fetchTxList_ok_view b node txList v hok with ⟨hv, hsha⟩ | ⟨prevNode, s₁, _, _, hdet, hsha, hv⟩
  · rw [hv, baselineTxStore_isSome, hsha]
    simp
  · rw [hsha]
    rcases hv with rfl | hatt
    · rw [detachBlocks_isSome b _ _ _ hdet h, baselineTxStore_isSome]
    · rw [attachBlocks_isSome b _ _ _ hatt h,
        detachBlocks_isSome b _ _ _ hdet h, baselineTxStore_isSome]

/-- Every successful `fetchTxList` view keys each entry by the entry's own
hash field. -/
theorem fetchTxList_hash_key (b : BlockChain) (node : blockNode) (txList : List Nat)
    (v : TxStore) (hok : fetchTxList b node txList = .ok (some v, none)) :
    hashKeyed v := by
  rcases fetchTxList_ok_view b node txList v hok with ⟨hv, _⟩ | ⟨prevNode, s₁, _, _, hdet, _, hv⟩
  · rw [hv]; exact hashKeyed_baseline b txList
  · rcases hv with rfl | hatt
    · exact hashKeyed_detachBlocks b _ _ _ hdet (hashKeyed_baseline b txList)
    · exact hashKeyed_attachBlocks b _ _ _ hatt
        (hashKeyed_detachBlocks b _ _ _ hdet (hashKeyed_baseline b txList))

theorem mem_txListIns (txs : List BlockTx) (btx : BlockTx) (t : TxIn)
    (hb : btx ∈ txs) (ht : t ∈ btx.tx.txIn) : t ∈ txListIns txs := by
  unfold txListIns
  rw [List.mem_flatten]
  exact ⟨btx.tx.txIn, List.mem_map.mpr ⟨btx, hb, rfl⟩, ht⟩

theorem mem_originIdxs (hash : Nat) (txIns : List TxIn) (t : TxIn) (ht : t ∈ txIns)
    (he : t.previousOutpoint.hash = hash) :
    t.previousOutpoint.index ∈ originIdxs hash txIns := by
  unfold originIdxs
  exact List.mem_filterMap.mpr ⟨t, ht, by rw [if_pos he]⟩

theorem originIdxs_mem (hash : Nat) (txIns : List TxIn) (i : Nat)
    (hi : i ∈ originIdxs hash txIns) :
    ∃ t ∈ txIns, t.previousOutpoint.hash = hash ∧ t.previousOutpoint.index = i := by
  unfold originIdxs at hi
  rcases List.mem_filterMap.mp hi with ⟨t, ht, he⟩
  by_cases hc : t.previousOutpoint.hash = hash
  · rw [if_pos hc] at he
    exact ⟨t, ht, hc, Option.some.inj he⟩
  · rw [if_neg hc] at he
    cases he

/-! ### Claims C2, C3, C9, C10 -/

/-- C2 (counterexample): in a block whose second transaction spends an
output of its first, the connected view's entry for the first transaction
does not end with the all-false bitmap the claim demands — the in-block
spend overwrites it — so the claimed postcondition and its order-
indifference fail as stated. -/
theorem connectTransactions_postcondition_counterexample :
    resultSpentAt (connectTransactions cexC2Store cexC2Block) 5 = some [true] ∧
      resultSpentAt (connectTransactions cexC2Store cexC2Block) 5 ≠
        some (List.replicate cexC2Tx1.txOut.length false) := by
  constructor
  · rfl
  · decide

/-- C2 (as amended): when the block's transaction hashes are distinct and no
input of the block references a block transaction's hash, a panic-free
`connectTransactions` run records, for every block transaction whose hash is
a key, its body, the block's height and a freshly sized all-unspent bitmap;
independently marks spent, in the origin's entry, the referenced output
index of every input whose origin hash is a key; and equals the
phase-separated run (all entry updates first, then all spend marks), so the
order between the two kinds of update does not matter. -/
theorem connectTransactions_postcondition (txStore txStore' : TxStore) (block : Block)
    (hok : connectTransactions txStore block = .ok txStore')
    (hnodup : (blockShas block).Nodup)
    (hnoin : ∀ t ∈ blockTxIns block, t.previousOutpoint.hash ∉ blockShas block) :
    (∀ btx ∈ block.transactions, ∀ td, txStore btx.sha = some td →
        txStore' btx.sha = some (refreshedEntry block.height btx td)) ∧
    (∀ btx ∈ block.transactions, ∀ t ∈ btx.tx.txIn,
        ∀ td, txStore t.previousOutpoint.hash = some td →
          ∃ td', txStore' t.previousOutpoint.hash = some td' ∧
            td'.spent[t.previousOutpoint.index]? = some true) ∧
    connectPhased txStore block = .ok txStore' := by
  have hnoin' : ∀ t ∈ txListIns block.transactions,
      t.previousOutpoint.hash ∉ block.transactions.map BlockTx.sha := hnoin
  refine ⟨?_, ?_, ?_⟩
  · intro btx hb td hst
    exact connectTxs_on_block block.height block.transactions txStore txStore' hok
      hnodup hnoin' btx hb td hst
  · intro btx hb t ht td hst
    have htmem : t ∈ txListIns block.transactions := mem_txListIns _ btx t hb ht
    have hout : t.previousOutpoint.hash ∉ block.transactions.map BlockTx.sha :=
      hnoin' t htmem
    have hchar := connectTxs_off_block block.height block.transactions txStore txStore'
      hok _ hout
    rw [hst, markSpends_some] at hchar
    refine ⟨_, hchar, ?_⟩
    have hlt := connectTxs_inBounds block.height block.transactions txStore txStore'
      hok btx hb t ht hout td hst
    show (foldSetIdx true
      (originIdxs t.previousOutpoint.hash (txListIns block.transactions))
        td.spent)[t.previousOutpoint.index]? = some true
    rw [foldSetIdx_getElem?,
      if_pos ⟨mem_originIdxs _ _ t htmem rfl, hlt⟩]
  · exact connectTxs_phased block.height block.transactions txStore txStore' hok hnoin'

/-- C2 (witness): the amended postcondition at a concrete store and block. -/
theorem connectTransactions_postcondition_witness :
    witC2Store' 9 = some (refreshedEntry 4 witC2Btx (missingEntry 9)) :=
  (connectTransactions_postcondition witC2Store witC2Store' witC2Block rfl
    (by decide) (by decide)).1 witC2Btx (by decide) (missingEntry 9) rfl

/-- C3 (counterexample): a spent flag that was already true before the
connect is cleared, not restored, by the disconnect: with the view's entry
for transaction 5 reading spent `[true]`, connect-then-disconnect of a block
spending that output leaves `[false]`. -/
theorem connect_disconnect_inverse_counterexample :
    storeSpentAt cexC3Store 5 = some [true] ∧
      resultSpentAt (connectThenDisconnect cexC3Store cexC3Block) 5 = some [false] := by
  constructor
  · rfl
  · rfl

/-- C3 (as amended): provided every origin output that the block's inputs
reference outside the block is unspent in the pre-connect view, applying
`connectTransactions` and then `disconnectTransactions` with the same block
(both panic-free) leaves the view observably equal to the pre-connect view:
entries for the block's own transactions are absent, and every other key —
spent flags of referenced origins included — holds exactly its pre-connect
value. -/
theorem connect_disconnect_inverse (txStore s₁ s₂ : TxStore) (block : Block)
    (hconn : connectTransactions txStore block = .ok s₁)
    (hdisc : disconnectTransactions s₁ block = .ok s₂)
    (hunspent : ∀ t ∈ blockTxIns block, t.previousOutpoint.hash ∉ blockShas block →
        ∀ td, txStore t.previousOutpoint.hash = some td →
          td.spent[t.previousOutpoint.index]? ≠ some true) :
    (∀ h ∈ blockShas block, s₂ h = none) ∧
    (∀ h ∉ blockShas block, s₂ h = txStore h) := by
  constructor
  · intro h hmem
    exact disconnectTxs_erased block.transactions s₁ s₂ hdisc h hmem
  · intro h hmem
    have h₁ := connectTxs_off_block block.height block.transactions txStore s₁ hconn h hmem
    have h₂ := disconnectTxs_off_block block.transactions s₁ s₂ hdisc h hmem
    rw [h₂, h₁]
    cases hst : txStore h with
    | none => rw [markSpends_none, markSpends_none]
    | some td =>
      rw [markSpends_some, markSpends_some]
      have hrestore : foldSetIdx false (originIdxs h (txListIns block.transactions))
          (foldSetIdx true (originIdxs h (txListIns block.transactions)) td.spent) =
            td.spent := by
        apply foldSetIdx_restore
        intro i hi
        rcases originIdxs_mem h _ i hi with ⟨t, ht, hhash, hidx⟩
        rw [← hidx]
        exact hunspent t ht (by rw [hhash]; exact hmem) td (by rw [hhash]; exact hst)
      rw [hrestore]

/-- C3 (witness): the amended inverse law at a concrete store and block. -/
theorem connect_disconnect_inverse_witness : witC3S2 5 = witC3Store 5 :=
  (connect_disconnect_inverse witC3Store witC3S1 witC3S2 witC3Block rfl rfl
    (by
      intro t ht hout td htd
      have hins : blockTxIns witC3Block = [⟨⟨5, 0⟩⟩] := rfl
      rw [hins] at ht
      have ht' : t = (⟨⟨5, 0⟩⟩ : TxIn) := List.mem_singleton.mp ht
      subst ht'
      have h5 : witC3Store 5 = some witC3Entry := rfl
      cases Option.some.inj (h5.symm.trans htd)
      decide)).2 5 (by decide)

/-- C9 (confirmed): the mutators index the origin entry's spent bitmap with
no bounds or nil check, so they complete without a panic exactly when, at
each spend write in processing order, the origin entry — if it is (still) a
key of the evolving view — has a spent bitmap strictly longer than the
referenced output index; the evolving bitmap lengths are tracked by
`refreshLen` (a connected transaction's entry is resized) and `eraseLen` (a
disconnected transaction's entry is gone), so in particular an entry still
holding the missing-status placeholder (empty bitmap) must not be referenced
as an input origin. -/
theorem mutators_spent_index_precondition (txStore : TxStore) (block : Block) :
    ((connectTransactions txStore block).isOk =
        connectSpendSafe (lenMap txStore) block.transactions) ∧
    ((disconnectTransactions txStore block).isOk =
        disconnectSpendSafe (lenMap txStore) block.transactions) :=
  ⟨connectTxs_isOk block.height block.transactions txStore,
   disconnectTxs_isOk block.transactions txStore⟩

/-- C10 (confirmed): neither mutator inserts a key: `connectTransactions`
preserves the key set exactly, `disconnectTransactions` yields the key set
minus the block's own transaction hashes, and both leave every entry whose
hash is neither a block transaction nor referenced as an input origin
completely unchanged. -/
theorem mutators_frame (txStore s₁ s₂ : TxStore) (block : Block)
    (hconn : connectTransactions txStore block = .ok s₁)
    (hdisc : disconnectTransactions txStore block = .ok s₂) :
    (∀ h, (s₁ h).isSome = (txStore h).isSome) ∧
    (∀ h, (s₂ h).isSome = ((txStore h).isSome && !decide (h ∈ blockShas block))) ∧
    (∀ h, h ∉ blockShas block → (∀ t ∈ blockTxIns block, t.previousOutpoint.hash ≠ h) →
        s₁ h = txStore h ∧ s₂ h = txStore h) := by
  refine ⟨fun h => connectTxs_isSome block.height block.transactions txStore s₁ hconn h,
    fun h => disconnectTxs_isSome block.transactions txStore s₂ hdisc h, ?_⟩
  intro h hmem hnoref
  constructor
  · rw [connectTxs_off_block block.height block.transactions txStore s₁ hconn h hmem]
    exact markSpends_not_referenced _ _ _ _ hnoref
  · rw [disconnectTxs_off_block block.transactions txStore s₂ hdisc h hmem]
    exact markSpends_not_referenced _ _ _ _ hnoref

/-- C10 (witness): the frame property at a concrete store and block, read at
the untouched key 3. -/
theorem mutators_frame_witness :
    ((witC10S1 3).isSome = (witC10Store 3).isSome) ∧
      (witC10S1 3 = witC10Store 3 ∧ witC10S2 3 = witC10Store 3) :=
  ⟨(mutators_frame witC10Store witC10S1 witC10S2 witC10Block rfl rfl).1 3,
   (mutators_frame witC10Store witC10S1 witC10S2 witC10Block rfl rfl).2.2 3
     (by decide) (by decide)⟩

theorem spentCopy_eq (l : List Bool) : spentCopy l = l := by
  unfold spentCopy goCopy
  rw [List.length_replicate, List.take_length,
    List.drop_eq_nil_of_le (by rw [List.length_replicate]), List.append_nil]

/-- C8 (confirmed): for each hit of the baseline bulk storage query, the
view's entry holds `spentCopy` of the reply's spent slice — a fresh slice
built by `make` plus `copy` — and that copy has the same length and contents
as the reply's slice.  In this value-semantics embedding, the freshly built
list cannot alias storage's reply, so later view mutations cannot reach it. -/
theorem baseline_defensive_copy (s : TxStore) (txReply : TxReply) (td : txData)
    (hkey : s txReply.sha = some td) (hok : txReply.err = none) :
    applyReply s txReply txReply.sha = some (hitEntry txReply td) ∧
      spentCopy txReply.txSpent = txReply.txSpent := by
  constructor
  · simp only [applyReply, hkey, hok]
    rw [TxStore.insert, if_pos rfl]
    rfl
  · exact spentCopy_eq _

/-- C8 (witness): the defensive copy at a concrete store and reply. -/
theorem baseline_defensive_copy_witness :
    applyReply witC8Store witC8Reply 5 = some (hitEntry witC8Reply (missingEntry 5)) ∧
      spentCopy [true, false] = [true, false] :=
  ⟨(baseline_defensive_copy witC8Store witC8Reply (missingEntry 5) rfl rfl).1,
   (baseline_defensive_copy witC8Store witC8Reply (missingEntry 5) rfl rfl).2⟩

/-- C4 (confirmed): every `fetchTxList` call that returns — a mutator panic
does not return — yields either a view with a nil error, or a nil view with
a non-nil error; a partial view is never paired with an error. -/
theorem fetchTxList_all_or_nothing (b : BlockChain) (node : blockNode)
    (txList : List Nat) (out : Option TxStore × Option GoErr)
    (hok : fetchTxList b node txList = .ok out) :
    (∃ v, out = (some v, none)) ∨ (∃ e, out = (none, some e)) := by
  cases hprev : b.getPrevNodeFromNode node with
  | error e =>
    rw [fetchTxList_prev_error b node txList e hprev] at hok
    exact Or.inr ⟨e, (Except.ok.inj hok).symm⟩
  | ok prevNode =>
    by_cases hshort : mainChainShortcut b prevNode = true
    · rw [fetchTxList_shortcut_eq b node txList prevNode hprev hshort] at hok
      exact Or.inl ⟨_, (Except.ok.inj hok).symm⟩
    · rw [Bool.not_eq_true] at hshort
      rw [fetchTxList_reorg b node txList prevNode hprev hshort] at hok
      cases hdet : detachBlocks b (baselineTxStore b txList)
          (b.getReorganizeNodes prevNode).1 with
      | error p => rw [hdet] at hok; exact absurd hok (by simp)
      | ok inner =>
        cases inner with
        | error e =>
          simp only [hdet] at hok
          exact Or.inr ⟨e, (Except.ok.inj hok).symm⟩
        | ok s₁ =>
          simp only [hdet] at hok
          by_cases hlen : (b.getReorganizeNodes prevNode).2.length = 0
          · rw [if_pos hlen] at hok
            exact Or.inl ⟨s₁, (Except.ok.inj hok).symm⟩
          · rw [if_neg hlen] at hok
            cases hatt : attachBlocks b s₁ (b.getReorganizeNodes prevNode).2 with
            | error p => rw [hatt] at hok; exact absurd hok (by simp)
            | ok inner₂ =>
              cases inner₂ with
              | error e =>
                simp only [hatt] at hok
                exact Or.inr ⟨e, (Except.ok.inj hok).symm⟩
              | ok s₂ =>
                simp only [hatt] at hok
                exact Or.inl ⟨s₂, (Except.ok.inj hok).symm⟩

/-- C4 (witness): the clean-result shape at a concrete chain and request. -/
theorem fetchTxList_all_or_nothing_witness :
    (∃ v, (some (baselineTxStore witC4Chain [7]), (none : Option GoErr)) = (some v, none)) ∨
      (∃ e, (some (baselineTxStore witC4Chain [7]), (none : Option GoErr)) = (none, some e)) :=
  fetchTxList_all_or_nothing witC4Chain ⟨1, 1⟩ [7] _ rfl

/-- C5 (confirmed): with no best chain selected, or with the requested
node's parent equal to the best-chain tip, `fetchTxList` returns the
main-chain baseline view immediately, and its result does not depend on the
fork resolver, the block storage fetch, or the side-chain cache — none of
the reorganization path runs. -/
theorem fetchTxList_main_chain_shortcut (b : BlockChain) (node : blockNode)
    (txList : List Nat) (prevNode : Option blockNode)
    (hprev : b.getPrevNodeFromNode node = .ok prevNode)
    (hshort : mainChainShortcut b prevNode = true) :
    fetchTxList b node txList = .ok (some (baselineTxStore b txList), none) ∧
      (∀ reorg fetchBlock cache,
        fetchTxList
          { b with getReorganizeNodes := reorg, fetchBlockBySha := fetchBlock,
                   blockCache := cache } node txList = fetchTxList b node txList) := by
  refine ⟨fetchTxList_shortcut_eq b node txList prevNode hprev hshort, ?_⟩
  intro reorg fetchBlock cache
  rw [fetchTxList_shortcut_eq b node txList prevNode hprev hshort,
    fetchTxList_shortcut_eq
      { b with getReorganizeNodes := reorg, fetchBlockBySha := fetchBlock,
               blockCache := cache } node txList prevNode hprev hshort]
  rfl

/-- C5 (witness): the shortcut at a concrete chain with no best chain
selected, with a nontrivial fork resolver substituted. -/
theorem fetchTxList_main_chain_shortcut_witness :
    fetchTxList witC5Chain witC5Node [7] =
        .ok (some (baselineTxStore witC5Chain [7]), none) ∧
      fetchTxList
        { witC5Chain with getReorganizeNodes := fun _ => ([witC5Node], [witC5Node]) }
        witC5Node [7] = fetchTxList witC5Chain witC5Node [7] :=
  ⟨(fetchTxList_main_chain_shortcut witC5Chain witC5Node [7] none rfl rfl).1,
   (fetchTxList_main_chain_shortcut witC5Chain witC5Node [7] none rfl rfl).2
     (fun _ => ([witC5Node], [witC5Node])) witC5Chain.fetchBlockBySha witC5Chain.blockCache⟩

/-- C7 (confirmed): when the attach loop reaches a node whose block is not
in the side-chain block cache, `fetchTxList` aborts at that point with the
formatted error naming the missing hash — a nil view and a non-nil error —
rather than panicking, skipping the node, or resolving the miss silently. -/
theorem fetchTxList_cache_miss_error (b : BlockChain) (node : blockNode)
    (txList : List Nat) (prevNode : Option blockNode) (stD stA : TxStore)
    (front : List blockNode) (n : blockNode) (rest : List blockNode)
    (hprev : b.getPrevNodeFromNode node = .ok prevNode)
    (hshort : mainChainShortcut b prevNode = false)
    (hdet : detachBlocks b (baselineTxStore b txList) (b.getReorganizeNodes prevNode).1 =
      .ok (.ok stD))
    (hattach : (b.getReorganizeNodes prevNode).2 = front ++ n :: rest)
    (hfront : attachBlocks b stD front = .ok (.ok stA))
    (hmiss : b.blockCache n.hash = none) :
    fetchTxList b node txList = .ok (none, some (GoErr.sideChainCacheMiss n.hash)) := by
  rw [fetchTxList_reorg b node txList prevNode hprev hshort]
  simp only [hdet, hattach]
  rw [if_neg (by simp : ¬((front ++ n :: rest).length = 0))]
  rw [attachBlocks_append b front (n :: rest) stD]
  simp only [hfront]
  simp only [attachBlocks, hmiss]

/-- C7 (witness): a concrete side-chain resolution whose single attach node
misses the cache. -/
theorem fetchTxList_cache_miss_error_witness :
    fetchTxList witC7Chain ⟨4, 4⟩ [] = .ok (none, some (GoErr.sideChainCacheMiss 3)) :=
  fetchTxList_cache_miss_error witC7Chain ⟨4, 4⟩ [] (some ⟨2, 1⟩)
    (baselineTxStore witC7Chain []) (baselineTxStore witC7Chain [])
    [] ⟨3, 3⟩ [] rfl rfl rfl rfl rfl rfl

theorem fetchTxList_key_set_counterexample :
    viewKeyStatus (fetchTxList cexC1Chain ⟨4, 4⟩ [100]) 100 = some false ∧
      100 ∈ [100] := by
  constructor
  · rfl
  · decide

/-- C1 (as amended): when `fetchTxList` returns without error, the key set
of the returned view equals the set of requested hashes minus the hashes of
the transactions of the blocks disconnected during the reorganization —
requested transactions created in detached blocks are deleted from the view,
not marked missing; in particular, with no reorganization (main-chain
shortcut) the key set equals the requested set exactly. -/
theorem fetchTxList_key_set (b : BlockChain) (node : blockNode) (txList : List Nat)
    (v : TxStore) (hok : fetchTxList b node txList = .ok (some v, none)) (h : Nat) :
    (v h).isSome = (decide (h ∈ txList) && !decide (h ∈ fetchDetachedShas b node)) :=
  fetchTxList_keys b node txList v hok h

/-- C1 (witness): the amended key-set law at a concrete chain and request. -/
theorem fetchTxList_key_set_witness :
    (witC1View 7).isSome =
      (decide (7 ∈ [7]) && !decide (7 ∈ fetchDetachedShas witC1Chain ⟨1, 1⟩)) :=
  fetchTxList_key_set witC1Chain ⟨1, 1⟩ [7] witC1View rfl 7

/-! ### Claim C6 -/

/-- An in-flight hash is never appended to the needed list by the inner
input loop. -/
theorem collectTxIns_needed (nodeHeight : Int) (txInFlight : Nat → Option MsgTx)
    (txIns : List TxIn) :
    ∀ acc : List Nat × TxStore, ∀ h, (txInFlight h).isSome → h ∉ acc.1 →
      h ∉ (collectTxIns nodeHeight txInFlight acc txIns).1 := by
  induction txIns with
  | nil => intro acc h _ hacc; exact hacc
  | cons t rest ih =>
    intro acc h hfl hacc
    cases hfl' : txInFlight t.previousOutpoint.hash with
    | some tx =>
      simp only [collectTxIns, hfl']
      exact ih _ h hfl hacc
    | none =>
      simp only [collectTxIns, hfl']
      apply ih _ h hfl
      intro hc
      rcases List.mem_append.mp hc with hm | hm
      · exact hacc hm
      · rw [List.mem_singleton.mp hm, hfl'] at hfl
        cases hfl

/-- An in-flight hash is never appended to the needed list by the outer
loop. -/
theorem collectNeeded_needed (nodeHeight : Int) (txInFlight : Nat → Option MsgTx)
    (txs : List BlockTx) :
    ∀ acc : List Nat × TxStore, ∀ h, (txInFlight h).isSome → h ∉ acc.1 →
      h ∉ (collectNeeded nodeHeight txInFlight acc txs).1 := by
  induction txs with
  | nil => intro acc h _ hacc; exact hacc
  | cons btx rest ih =>
    intro acc h hfl hacc
    rw [collectNeeded]
    exact ih _ h hfl (collectTxIns_needed nodeHeight txInFlight btx.tx.txIn acc h hfl hacc)

/-- Once the store holds the in-flight entry for `h`, the inner input loop
keeps it (every later insert at `h` re-inserts the same entry). -/
theorem collectTxIns_entry_kept (nodeHeight : Int) (txInFlight : Nat → Option MsgTx)
    (tx' : MsgTx) (txIns : List TxIn) :
    ∀ acc : List Nat × TxStore, ∀ h, txInFlight h = some tx' →
      acc.2 h = some (inFlightEntry nodeHeight h tx') →
      (collectTxIns nodeHeight txInFlight acc txIns).2 h =
        some (inFlightEntry nodeHeight h tx') := by
  induction txIns with
  | nil => intro acc h _ hacc; exact hacc
  | cons t rest ih =>
    intro acc h hfl hacc
    cases hfl' : txInFlight t.previousOutpoint.hash with
    | some tx =>
      simp only [collectTxIns, hfl']
      apply ih _ h hfl
      show TxStore.insert acc.2 t.previousOutpoint.hash
        (inFlightEntry nodeHeight t.previousOutpoint.hash tx) h =
          some (inFlightEntry nodeHeight h tx')
      unfold TxStore.insert
      by_cases hh : h = t.previousOutpoint.hash
      · rw [if_pos hh]
        rw [← hh, hfl] at hfl'
        rw [Option.some.inj hfl', hh]
      · rw [if_neg hh]
        exact hacc
    | none =>
      simp only [collectTxIns, hfl']
      apply ih _ h hfl
      show TxStore.insert acc.2 t.previousOutpoint.hash
        (missingEntry t.previousOutpoint.hash) h = some (inFlightEntry nodeHeight h tx')
      unfold TxStore.insert
      have hh : h ≠ t.previousOutpoint.hash := by
        intro he; rw [he, hfl'] at hfl; cases hfl
      rw [if_neg hh]
      exact hacc

/-- An input referencing an in-flight hash establishes the in-flight entry
at that hash. -/
theorem collectTxIns_entry_made (nodeHeight : Int) (txInFlight : Nat → Option MsgTx)
    (tx' : MsgTx) (txIns : List TxIn) :
    ∀ acc : List Nat × TxStore, ∀ h, txInFlight h = some tx' →
      (∃ t ∈ txIns, t.previousOutpoint.hash = h) →
      (collectTxIns nodeHeight txInFlight acc txIns).2 h =
        some (inFlightEntry nodeHeight h tx') := by
  induction txIns with
  | nil => intro acc h _ href; simp at href
  | cons t rest ih =>
    intro acc h hfl href
    by_cases hh : t.previousOutpoint.hash = h
    · have hfl'' : txInFlight t.previousOutpoint.hash = some tx' := by
        rw [hh]; exact hfl
      simp only [collectTxIns, hfl'']
      refine collectTxIns_entry_kept nodeHeight txInFlight tx' rest _ h hfl ?_
      show TxStore.insert acc.2 t.previousOutpoint.hash
        (inFlightEntry nodeHeight t.previousOutpoint.hash tx') h =
          some (inFlightEntry nodeHeight h tx')
      unfold TxStore.insert
      rw [if_pos hh.symm, hh]
    · rcases href with ⟨t₀, ht₀, he₀⟩
      have ht₀' : t₀ ∈ rest := by
        rcases List.mem_cons.mp ht₀ with he | hm
        · exact absurd (he ▸ he₀) hh
        · exact hm
      cases hfl' : txInFlight t.previousOutpoint.hash with
      | some tx =>
        simp only [collectTxIns, hfl']
        exact ih _ h hfl ⟨t₀, ht₀', he₀⟩
      | none =>
        simp only [collectTxIns, hfl']
        exact ih _ h hfl ⟨t₀, ht₀', he₀⟩

/-- Against the outer loop: a store already holding, or a transaction list
referencing, the in-flight hash ends with its in-flight entry. -/
theorem collectNeeded_entry (nodeHeight : Int) (txInFlight : Nat → Option MsgTx)
    (tx' : MsgTx) (txs : List BlockTx) :
    ∀ acc : List Nat × TxStore, ∀ h, txInFlight h = some tx' →
      ((∃ t ∈ txListIns txs, t.previousOutpoint.hash = h) ∨
        acc.2 h = some (inFlightEntry nodeHeight h tx')) →
      (collectNeeded nodeHeight txInFlight acc txs).2 h =
        some (inFlightEntry nodeHeight h tx') := by
  induction txs with
  | nil =>
    intro acc h _ href
    rcases href with href | hacc
    · simp [txListIns] at href
    · exact hacc
  | cons btx rest ih =>
    intro acc h hfl href
    rw [collectNeeded]
    rcases href with href | hacc
    · rw [txListIns_cons] at href
      rcases href with ⟨t₀, ht₀, he₀⟩
      rcases List.mem_append.mp ht₀ with hm | hm
      · exact ih _ h hfl (Or.inr
          (collectTxIns_entry_made nodeHeight txInFlight tx' btx.tx.txIn acc h hfl
            ⟨t₀, hm, he₀⟩))
      · exact ih _ h hfl (Or.inl ⟨t₀, hm, he₀⟩)
    · exact ih _ h hfl (Or.inr
        (collectTxIns_entry_kept nodeHeight txInFlight tx' btx.tx.txIn acc h hfl hacc))

/-- C6 (confirmed): an input origin that is the hash of one of the block's
own transactions is resolved from the in-flight map — the working view's
entry carries the in-flight transaction's body, the node's height, an
all-unspent bitmap sized to its output count and success status — and that
hash is never put on the needed list handed to `fetchTxList`, so no storage
or view-resolver lookup is issued for it, and the merged result keeps the
in-flight entry. -/
theorem fetchInputTransactions_in_flight (b : BlockChain) (node : blockNode)
    (block : Block) (h : Nat) (tx' : MsgTx)
    (hfl : buildTxInFlight block.transactions h = some tx')
    (href : ∃ t ∈ txListIns (block.transactions.drop 1), t.previousOutpoint.hash = h) :
    (h ∉ (collectNeeded node.height (buildTxInFlight block.transactions)
        ([], emptyTxStore) (block.transactions.drop 1)).1) ∧
    ((collectNeeded node.height (buildTxInFlight block.transactions)
        ([], emptyTxStore) (block.transactions.drop 1)).2 h =
      some (inFlightEntry node.height h tx')) ∧
    (∀ v, fetchInputTransactions b node block = .ok (some v, none) →
        v h = some (inFlightEntry node.height h tx')) := by
  have hneed : h ∉ (collectNeeded node.height (buildTxInFlight block.transactions)
      ([], emptyTxStore) (block.transactions.drop 1)).1 :=
    collectNeeded_needed node.height (buildTxInFlight block.transactions) _ _ h
      (by rw [hfl]; rfl) (by simp)
  have hentry := collectNeeded_entry node.height (buildTxInFlight block.transactions) tx'
    (block.transactions.drop 1) ([], emptyTxStore) h hfl (Or.inl href)
  refine ⟨hneed, hentry, ?_⟩
  intro v hv
  simp only [fetchInputTransactions] at hv
  cases hfetch : fetchTxList b node (collectNeeded node.height
      (buildTxInFlight block.transactions) ([], emptyTxStore)
      (block.transactions.drop 1)).1 with
  | error p => rw [hfetch] at hv; cases hv
  | ok out =>
    rcases out with ⟨viewOpt, errOpt⟩
    cases errOpt with
    | some e =>
      simp only [hfetch] at hv
      exact absurd hv (by simp)
    | none =>
      simp only [hfetch] at hv
      have hveq : mergeNeeded (collectNeeded node.height
          (buildTxInFlight block.transactions) ([], emptyTxStore)
          (block.transactions.drop 1)).2 viewOpt = v := by
        have h1 := congrArg Prod.fst (Except.ok.inj hv)
        exact Option.some.inj h1
      rw [← hveq]
      cases viewOpt with
      | none => exact hentry
      | some nv =>
        have hkeys := fetchTxList_keys b node _ nv hfetch h
        have hnone : nv h = none := by
          cases hnv : nv h with
          | none => rfl
          | some td =>
            rw [hnv] at hkeys
            simp only [Option.isSome_some] at hkeys
            have hand := (Bool.and_eq_true _ _).mp hkeys.symm
            exact absurd (of_decide_eq_true hand.1) hneed
        have hmerge : ∀ txStore : TxStore, mergeNeeded txStore (some nv) h = txStore h := by
          intro txStore
          show (match nv h with
            | some txD => some txD
            | none => txStore h) = txStore h
          rw [hnone]
        rw [hmerge]
        exact hentry

/-- C6 (witness): in-flight resolution at a concrete block whose third
transaction spends an output of its second. -/
theorem fetchInputTransactions_in_flight_witness :
    witC6View 10 = some (inFlightEntry 5 10 ⟨[], [0]⟩) :=
  (fetchInputTransactions_in_flight witC6Chain ⟨1, 5⟩ witC6Block 10 ⟨[], [0]⟩ rfl
    (by decide)).2.2 witC6View rfl

end BtcChain
